import Mathlib

/- Shallow embedding of the webhook dashboard repository: the incremental
aggregation engine from src/app/page.tsx (processApiData) and the API route
handlers for webhook attempts and webhook messages. Timestamps are modelled
as natural numbers (epoch milliseconds, the value of getTime on the parsed
date); an absent string field is modelled as the empty string where the
source only tests JavaScript truthiness, and as Option String where the
source distinguishes absence. JavaScript Map insertion semantics (update in
place, append new keys at the end) are modelled by jsMapSet, and the stable
Array.prototype.sort is modelled by List.insertionSort, which computes the
same stable result. -/

/-- One webhook delivery attempt record, as in the Attempt interface of
src/app/page.tsx. -/
structure Attempt where
  id : String
  createdAt : Nat
  messageId : String
  hookId : String
  isFailure : Bool
  failureReason : String
  resultCode : Nat
  resultBody : String
deriving DecidableEq, Repr, Inhabited

/-- An entry of messagesWithErrors: a message whose payload failed to parse,
as in the MessageWithError interface of src/app/page.tsx and the entries
pushed by the messages route. -/
structure MessageWithError where
  id : String
  error : String
  payload : Option String
deriving DecidableEq, Repr, Inhabited

/-- The per-message aggregate, as in the ProcessedMessage interface of
src/app/page.tsx. largePayloadFailure is Option Bool because the source
leaves it undefined when there is no latest failure. -/
structure ProcessedMessage where
  messageId : String
  oldestAttempt : Nat
  newestAttempt : Nat
  attemptCount : Nat
  successRate : ℚ
  hookId : String
  documentId : Option String
  attempts : List Attempt
  latestFailure : Option Attempt
  parsingError : Option String
  largePayloadFailure : Option Bool
deriving DecidableEq, Repr, Inhabited

/-- Ascending comparison by createdAt used to sort attempts, from the
comparator new Date(a.createdAt).getTime() - new Date(b.createdAt).getTime(). -/
def timeLe (a b : Attempt) : Prop := a.createdAt ≤ b.createdAt

instance : DecidableRel timeLe := fun a b => Nat.decLe a.createdAt b.createdAt

instance : IsTotal Attempt timeLe := ⟨fun a b => Nat.le_total a.createdAt b.createdAt⟩

instance : IsTrans Attempt timeLe := ⟨fun _ _ _ h1 h2 => Nat.le_trans h1 h2⟩

/-- Descending comparison by createdAt used by the attempts route to sort the
concatenated pages, newest first. -/
def timeGe (a b : Attempt) : Prop := b.createdAt ≤ a.createdAt

instance : DecidableRel timeGe := fun a b => Nat.decLe b.createdAt a.createdAt

instance : IsTotal Attempt timeGe := ⟨fun a b => Nat.le_total b.createdAt a.createdAt⟩

instance : IsTrans Attempt timeGe := ⟨fun _ _ _ h1 h2 => Nat.le_trans h2 h1⟩

/-- Descending comparison by newestAttempt used to order the aggregate
collection, from the comparator new Date(b.newestAttempt).getTime() -
new Date(a.newestAttempt).getTime(). -/
def newestGe (a b : ProcessedMessage) : Prop := b.newestAttempt ≤ a.newestAttempt

instance : DecidableRel newestGe := fun a b => Nat.decLe b.newestAttempt a.newestAttempt

instance : IsTotal ProcessedMessage newestGe :=
  ⟨fun a b => Nat.le_total b.newestAttempt a.newestAttempt⟩

instance : IsTrans ProcessedMessage newestGe := ⟨fun _ _ _ h1 h2 => Nat.le_trans h2 h1⟩

/-- createdAt of attempts[0], the first element of the sorted member list. -/
def firstTime : List Attempt → Nat
  | [] => 0
  | a :: _ => a.createdAt

/-- createdAt of attempts[attempts.length - 1], the last element of the sorted
member list. -/
def lastTime (l : List Attempt) : Nat :=
  match l.getLast? with
  | some a => a.createdAt
  | none => 0

/-- hookId of attempts[0]. -/
def headHook : List Attempt → String
  | [] => ""
  | a :: _ => a.hookId

/-- First-match association lookup, modelling reads from a JavaScript object
or Map whose keys are unique. -/
def alookup {β : Type} (k : String) : List (String × β) → Option β
  | [] => none
  | p :: m => if p.1 = k then some p.2 else alookup k m

/-- Whether an association list has an entry for key k. -/
def hasKey {β : Type} (m : List (String × β)) (k : String) : Bool :=
  m.any (fun p => p.1 == k)

/-- JavaScript Map.set / object assignment: update the entry in place when the
key is present (keeping its position), otherwise append a new entry. -/
def jsMapSet {β : Type} (m : List (String × β)) (k : String) (v : β) :
    List (String × β) :=
  if hasKey m k then m.map (fun p => if p.1 = k then (k, v) else p)
  else m ++ [(k, v)]

/-- Whether pat occurs at the start of hay. -/
def charsPrefix : List Char → List Char → Bool
  | [], _ => true
  | _ :: _, [] => false
  | c :: cs, d :: ds => c == d && charsPrefix cs ds

/-- Whether pat occurs as a contiguous substring of hay. -/
def charsContain (pat : List Char) : List Char → Bool
  | [] => charsPrefix pat []
  | c :: cs => charsPrefix pat (c :: cs) || charsContain pat cs

/-- s.toLowerCase().includes(pat), for an already lowercase pattern. -/
def lowerIncludes (s pat : String) : Bool :=
  charsContain pat.data (s.data.map Char.toLower)

/-- Push attempt a onto the group for its messageId, creating the group if it
does not exist yet, as messageMap.get(attempt.messageId)?.push(attempt). -/
def groupPush (m : List (String × List Attempt)) (a : Attempt) :
    List (String × List Attempt) :=
  if hasKey m a.messageId then
    m.map (fun p => if p.1 = a.messageId then (p.1, p.2 ++ [a]) else p)
  else m ++ [(a.messageId, [a])]

/-- One step of the grouping loop: attempts without a messageId are skipped. -/
def groupStep (m : List (String × List Attempt)) (a : Attempt) :
    List (String × List Attempt) :=
  if a.messageId = "" then m else groupPush m a

/-- Group the batch by messageId, preserving first-occurrence key order and
within-group arrival order, as the messageMap loop of processApiData. -/
def groupByMessageId (atts : List Attempt) : List (String × List Attempt) :=
  atts.foldl groupStep []

/-- The Map of message id to error built from messagesWithErrors at the start
of processApiData (later entries overwrite earlier ones). -/
def errMapOf (errs : List MessageWithError) : List (String × String) :=
  errs.foldl (fun m e => jsMapSet m e.id e.error) []

/-- Derive one ProcessedMessage from a group of attempts, as the
messageMap.forEach body of processApiData: sort ascending by createdAt, then
compute every derived field from the sorted member list. -/
def deriveMessage (docIds : List (String × String)) (errMap : List (String × String))
    (messageId : String) (atts : List Attempt) : ProcessedMessage :=
  let sorted := List.insertionSort timeLe atts
  let successCount := (sorted.filter (fun a => !a.isFailure)).length
  let latestFailure := (sorted.filter (fun a => a.isFailure)).getLast?
  { messageId := messageId
    oldestAttempt := firstTime sorted
    newestAttempt := lastTime sorted
    attemptCount := sorted.length
    successRate := (successCount : ℚ) / (sorted.length : ℚ) * 100
    hookId := headHook sorted
    documentId := alookup messageId docIds
    attempts := sorted
    latestFailure := latestFailure
    parsingError :=
      match alookup messageId errMap with
      | some e => if e = "" then none else some e
      | none => none
    largePayloadFailure := latestFailure.map (fun f =>
      lowerIncludes f.failureReason "payload too large" ||
      lowerIncludes f.failureReason "request entity too large" ||
      lowerIncludes f.resultBody "payload too large" ||
      (f.resultCode == 413)) }

/-- The grouped-and-derived list computed by processApiData before its final
sort. -/
def processedOf (atts : List Attempt) (docIds : List (String × String))
    (errs : List MessageWithError) : List ProcessedMessage :=
  (groupByMessageId atts).map (fun p => deriveMessage docIds (errMapOf errs) p.1 p.2)

/-- The merge body for a message that already exists: filter the incoming
attempts against the global set of already seen attempt ids, and when any
survive, union the member lists, re-sort by createdAt, and recompute
oldestAttempt, newestAttempt, attemptCount, successRate and latestFailure.
The remaining fields are spread from the existing aggregate unchanged. -/
def updateExisting (existingIds : List String) (existingMsg newMsg : ProcessedMessage) :
    ProcessedMessage :=
  let newAttempts := newMsg.attempts.filter (fun a => !(existingIds.contains a.id))
  if 0 < newAttempts.length then
    let combinedAttempts := List.insertionSort timeLe (existingMsg.attempts ++ newAttempts)
    let successCount := (combinedAttempts.filter (fun a => !a.isFailure)).length
    { existingMsg with
      attempts := combinedAttempts
      oldestAttempt := firstTime combinedAttempts
      newestAttempt := lastTime combinedAttempts
      attemptCount := combinedAttempts.length
      successRate := (successCount : ℚ) / (combinedAttempts.length : ℚ) * 100
      latestFailure := (combinedAttempts.filter (fun a => a.isFailure)).getLast? }
  else existingMsg

/-- The messageIds of the existing aggregate collection (existingMessageMap
key set). -/
def stateKeysOf (S : List ProcessedMessage) : List String :=
  S.map (fun m => m.messageId)

/-- Every attempt id present in the existing aggregate collection
(existingAttemptMap key set). -/
def stateIds (S : List ProcessedMessage) : List String :=
  (S.map (fun m => m.attempts.map (fun a => a.id))).flatten

/-- One iteration of the processedMessages.forEach merge loop of
processApiData, acting on the combinedMessagesMap association list. -/
def mergeStep (stateKeys existingIds : List String)
    (acc : List (String × ProcessedMessage)) (newMsg : ProcessedMessage) :
    List (String × ProcessedMessage) :=
  if stateKeys.contains newMsg.messageId then
    match alookup newMsg.messageId acc with
    | some existingMsg =>
        jsMapSet acc newMsg.messageId (updateExisting existingIds existingMsg newMsg)
    | none => acc
  else jsMapSet acc newMsg.messageId newMsg

/-- combinedMessagesMap initialised from the existing collection. -/
def toEntries (S : List ProcessedMessage) : List (String × ProcessedMessage) :=
  S.foldl (fun m msg => jsMapSet m msg.messageId msg) []

/-- processApiData from src/app/page.tsx restricted to its pure data path:
group the batch, derive one aggregate per group, sort descending by
newestAttempt; when loading more data into a non-empty collection, merge the
derived aggregates into the existing ones and re-sort, otherwise replace the
collection. -/
def processApiData (state : List ProcessedMessage) (atts : List Attempt)
    (docIds : List (String × String)) (errs : List MessageWithError)
    (isLoadingMoreData : Bool) : List ProcessedMessage :=
  let processed := List.insertionSort newestGe (processedOf atts docIds errs)
  if isLoadingMoreData && decide (0 < state.length) then
    let accF := processed.foldl (mergeStep (stateKeysOf state) (stateIds state))
      (toEntries state)
    List.insertionSort newestGe (accF.map (fun p => p.2))
  else processed

/-- One recorded call to processApiData. -/
structure MergeCall where
  atts : List Attempt
  docIds : List (String × String)
  errs : List MessageWithError
  isIncremental : Bool

/-- A whole session: fold a sequence of processApiData calls from the empty
collection. -/
def mergeSeq (calls : List MergeCall) : List ProcessedMessage :=
  calls.foldl (fun st c => processApiData st c.atts c.docIds c.errs c.isIncremental) []

/-- Reference recomputation for one existing aggregate and one incoming batch
group, written exactly as the per-group derivation of step 2 but applied to
the unioned member list; used to state which fields the incremental merge
recomputes from the union. -/
def deriveFromUnion (docIds : List (String × String)) (errMap : List (String × String))
    (existingMsg newMsg : ProcessedMessage) (existingIds : List String) :
    ProcessedMessage :=
  deriveMessage docIds errMap existingMsg.messageId
    (existingMsg.attempts ++ newMsg.attempts.filter (fun a => !(existingIds.contains a.id)))

/-- Result of an API route handler: an error response with an HTTP status, or
a success payload. -/
inductive ApiResult (α : Type) where
  | fail (status : Nat) (message : String)
  | ok (payload : α)
deriving Repr, DecidableEq

/-- token.trim(): strip leading and trailing whitespace, structurally on the
character list. -/
def strTrim (s : String) : String :=
  String.mk (((s.data.dropWhile Char.isWhitespace).reverse.dropWhile
    Char.isWhitespace).reverse)

/-- JavaScript falsiness of an optional string (null or empty). -/
def jsStrFalsy : Option String → Bool
  | none => true
  | some s => s == ""

/-- MAX_PAGES of the attempts route. -/
def MAX_PAGES_ATTEMPTS : Nat := 10

/-- PAGES_TO_FETCH of the attempts route. -/
def PAGES_TO_FETCH : Nat := min MAX_PAGES_ATTEMPTS 5

/-- Milliseconds per hour, for the time window arithmetic. -/
def msPerHour : Int := 3600000

/-- Success payload of the attempts route. -/
structure AttemptsPayload where
  attempts : List Attempt
  offset : Nat
  limit : Nat
  hasMore : Bool
  nextOffset : Option Nat
  totalFetched : Nat
  pages : Nat
deriving DecidableEq, Repr

/-- GET of src/app/api/webhook-attempts/route.ts, with the upstream network
modelled by fetchPage (none is a failed page, recovered as an empty result)
and the clock by now. The second component records which page offsets were
requested from the upstream API. -/
def attemptsRoute (projectId webhookId : Option String)
    (offsetParam limitParam : Option Nat) (beforeTimestamp : Option Int)
    (token : Option String) (now : Int) (fetchPage : Nat → Option (List Attempt)) :
    ApiResult AttemptsPayload × List Nat :=
  let initialOffset := offsetParam.getD 0
  let limit := match limitParam with | some l => min l 50 | none => 50
  if jsStrFalsy projectId || jsStrFalsy webhookId then
    (ApiResult.fail 400 "Missing required parameters: projectId and webhookId are required", [])
  else
    let timeWindow : Int × Int :=
      match beforeTimestamp with
      | some b => (b - 24 * msPerHour, b)
      | none => (now - 12 * msPerHour, now)
    if jsStrFalsy (token.map strTrim) then
      (ApiResult.fail 500 "SANITY_API_TOKEN is not defined in environment variables", [])
    else
      let offsets := (List.range PAGES_TO_FETCH).map (fun i => initialOffset + i * limit)
      let results := offsets.map (fun o =>
        match fetchPage o with
        | none => []
        | some page => page.filter (fun a =>
            decide (timeWindow.1 ≤ (a.createdAt : Int)) &&
            decide ((a.createdAt : Int) ≤ timeWindow.2)))
      let allAttempts := List.insertionSort timeGe results.flatten
      let hasMore := decide (MAX_PAGES_ATTEMPTS ≤ offsets.length)
      (ApiResult.ok {
        attempts := allAttempts
        offset := initialOffset
        limit := limit
        hasMore := hasMore
        nextOffset := if hasMore then some (initialOffset + limit) else none
        totalFetched := allAttempts.length
        pages := PAGES_TO_FETCH }, offsets)

/-- A minimal JSON value, the image of JSON.parse. -/
inductive JVal where
  | jnull
  | jbool (b : Bool)
  | jstr (s : String)
  | jnum (q : ℚ)
  | jarr (elems : List JVal)
  | jobj (fields : List (String × JVal))
deriving Inhabited

/-- Property access on a parsed value: defined on objects, undefined (none)
on everything else. -/
def getField (j : JVal) (k : String) : Option JVal :=
  match j with
  | JVal.jobj fields => alookup k fields
  | _ => none

/-- JavaScript truthiness of a parsed value. -/
def jsTruthy : JVal → Bool
  | JVal.jnull => false
  | JVal.jbool b => b
  | JVal.jstr s => !(s == "")
  | JVal.jnum q => !(q == 0)
  | JVal.jarr _ => true
  | JVal.jobj _ => true

/-- Truthiness of a possibly undefined value. -/
def truthyOpt : Option JVal → Bool
  | none => false
  | some v => jsTruthy v

/-- One upstream webhook message record. -/
structure MessageRec where
  id : String
  createdAt : Nat
  payload : Option String
deriving Repr, Inhabited

/-- payload.substring(0, n). -/
def strTake (s : String) (n : Nat) : String := String.mk (s.data.take n)

/-- One iteration of the allMessages.forEach document id extraction loop of
the messages route: parse the payload when truthy, record after._id in the
identifier map when present and truthy, and on a parse exception append an
error entry carrying the message id, the error and a payload snippet. -/
def extractStep (parse : String → Except String JVal)
    (acc : List (String × JVal) × List MessageWithError) (msg : MessageRec) :
    List (String × JVal) × List MessageWithError :=
  match msg.payload with
  | none => acc
  | some p =>
    if p = "" then acc
    else
      match parse p with
      | Except.ok j =>
        let aft := getField j "after"
        if truthyOpt aft then
          match aft.bind (fun a => getField a "_id") with
          | some idv => if jsTruthy idv then (jsMapSet acc.1 msg.id idv, acc.2) else acc
          | none => acc
        else acc
      | Except.error e =>
        (acc.1, acc.2 ++ [⟨msg.id, e, some (strTake p 100 ++ "...")⟩])

/-- The document id extraction loop of the messages route, with JSON.parse
modelled by the parse parameter. -/
def extractDocumentIds (parse : String → Except String JVal) (msgs : List MessageRec) :
    List (String × JVal) × List MessageWithError :=
  msgs.foldl (extractStep parse) ([], [])

/-- Descending comparison by createdAt for message records. -/
def msgTimeGe (a b : MessageRec) : Prop := b.createdAt ≤ a.createdAt

instance : DecidableRel msgTimeGe := fun a b => Nat.decLe b.createdAt a.createdAt

instance : IsTotal MessageRec msgTimeGe := ⟨fun a b => Nat.le_total b.createdAt a.createdAt⟩

instance : IsTrans MessageRec msgTimeGe := ⟨fun _ _ _ h1 h2 => Nat.le_trans h2 h1⟩

/-- MAX_PAGES of the messages route. -/
def MAX_PAGES_MESSAGES : Nat := 3

/-- Success payload of the messages route. -/
structure MessagesPayload where
  documentIds : List (String × JVal)
  messagesWithErrors : List MessageWithError
deriving Inhabited

/-- GET of the webhook-messages route, with the upstream network modelled by
fetchPage and JSON.parse by parse. The second component records which page
offsets were requested from the upstream API. -/
def messagesRoute (projectId webhookId : Option String) (beforeTimestamp : Option Int)
    (token : Option String) (now : Int) (fetchPage : Nat → Option (List MessageRec))
    (parse : String → Except String JVal) : ApiResult MessagesPayload × List Nat :=
  if jsStrFalsy projectId || jsStrFalsy webhookId then
    (ApiResult.fail 400 "Missing required parameters: projectId and webhookId are required", [])
  else if jsStrFalsy (token.map strTrim) then
    (ApiResult.fail 500 "SANITY_API_TOKEN is not defined in environment variables", [])
  else
    let limit := 50
    let timeWindow : Int × Int :=
      match beforeTimestamp with
      | some b => (b - 12 * msPerHour, b)
      | none => (now - 6 * msPerHour, now)
    let offsets := (List.range MAX_PAGES_MESSAGES).map (fun i => i * limit)
    let results := offsets.map (fun o =>
      match fetchPage o with
      | none => []
      | some page => page.filter (fun m =>
          decide (timeWindow.1 ≤ (m.createdAt : Int)) &&
          decide ((m.createdAt : Int) ≤ timeWindow.2)))
    let allMessages := List.insertionSort msgTimeGe results.flatten
    let extracted := extractDocumentIds parse allMessages
    (ApiResult.ok { documentIds := extracted.1, messagesWithErrors := extracted.2 }, offsets)

/-- The keys of an association list. -/
def entryKeys {β : Type} (m : List (String × β)) : List String :=
  m.map (fun p => p.1)

/-- Canonical lookup of the aggregate with a given messageId in a collection. -/
def pmFind (k : String) : List ProcessedMessage → Option ProcessedMessage
  | [] => none
  | v :: S => if v.messageId = k then some v else pmFind k S

/-- Specification of one incremental merge, per messageId: an unseen derived
aggregate is inserted, a seen one is merged through updateExisting against the
ids already present in the whole collection, and aggregates absent from the
batch are preserved. processApiData with isLoadingMoreData set realises
exactly this per-key description. -/
def mergeLookup (S : List ProcessedMessage) (atts : List Attempt)
    (docIds : List (String × String)) (errs : List MessageWithError) (k : String) :
    Option ProcessedMessage :=
  match pmFind k S, pmFind k (processedOf atts docIds errs) with
  | some s, some nm => some (updateExisting (stateIds S) s nm)
  | some s, none => some s
  | none, some nm => some nm
  | none, none => none

/-- Strict descending comparison by newestAttempt. -/
def newestGt (a b : ProcessedMessage) : Prop := b.newestAttempt < a.newestAttempt

instance : IsAntisymm ProcessedMessage newestGt :=
  ⟨fun _ _ h1 h2 => absurd (Nat.lt_trans h1 h2) (Nat.lt_irrefl _)⟩

/-- Attempt literal used by the concrete evaluations below. -/
def mkAtt (i : String) (t : Nat) (m : String) (h : String) (f : Bool) (c : Nat) : Attempt :=
  { id := i, createdAt := t, messageId := m, hookId := h, isFailure := f,
    failureReason := "", resultCode := c, resultBody := "" }

/-- Batch with a single successful attempt for message m carrying hook h1. -/
def batchA : List Attempt := [mkAtt "x1" 1 "m" "h1" false 200]

/-- Batch with a single successful attempt for message m carrying hook h2,
disjoint from batchA by attempt id. -/
def batchB : List Attempt := [mkAtt "y1" 2 "m" "h2" false 200]

/-- A failing attempt with result code 500 at time 1. -/
def att500 : Attempt := mkAtt "f1" 1 "m" "h" true 500

/-- A failing attempt with result code 413 at time 2. -/
def att413 : Attempt := mkAtt "f2" 2 "m" "h" true 413

/-- A successful attempt used to seed states in the witnesses. -/
def attOk : Attempt := mkAtt "w1" 1 "mw" "h" false 200

/-- A later successful attempt for the same message as attOk. -/
def attOk2 : Attempt := mkAtt "w2" 2 "mw" "h" false 200

/-- A parser that accepts every payload as the empty JSON object. -/
def parseEmptyObj : String → Except String JVal := fun _ => Except.ok (JVal.jobj [])

/-- A parser that rejects every payload. -/
def parseFail : String → Except String JVal := fun _ => Except.error "bad json"

/-- An attempt with an empty messageId, which the grouping loop must drop. -/
def attNoMsg : Attempt := mkAtt "n1" 3 "" "h" false 200

/-- The error entry, if any, that the extraction loop records for one
message: present exactly when the payload is truthy and parsing it throws. -/
def errEntryOf (parse : String → Except String JVal) (msg : MessageRec) :
    Option MessageWithError :=
  match msg.payload with
  | none => none
  | some p =>
    if p = "" then none
    else
      match parse p with
      | Except.ok _ => none
      | Except.error e => some ⟨msg.id, e, some (strTake p 100 ++ "...")⟩

/-- Whether the extraction loop records a document id for one message:
payload truthy, parse succeeds, after truthy and after._id truthy. -/
def extractAddsId (parse : String → Except String JVal) (msg : MessageRec) : Bool :=
  match msg.payload with
  | none => false
  | some p =>
    if p = "" then false
    else
      match parse p with
      | Except.ok j =>
        if truthyOpt (getField j "after") then
          match (getField j "after").bind (fun a => getField a "_id") with
          | some idv => jsTruthy idv
          | none => false
        else false
      | Except.error _ => false

theorem entryKeys_cons {β : Type} (p : String × β) (m : List (String × β)) :
    entryKeys (p :: m) = p.1 :: entryKeys m := rfl

theorem mem_entryKeys {β : Type} {m : List (String × β)} {k : String} :
    k ∈ entryKeys m ↔ ∃ v, (k, v) ∈ m := by
  constructor
  · intro h
    obtain ⟨p, hp, he⟩ := List.mem_map.mp h
    exact ⟨p.2, by rwa [← he, Prod.mk.eta]⟩
  · rintro ⟨v, hv⟩
    exact List.mem_map.mpr ⟨(k, v), hv, rfl⟩

theorem hasKey_iff {β : Type} (m : List (String × β)) (k : String) :
    hasKey m k = true ↔ k ∈ entryKeys m := by
  simp only [hasKey, List.any_eq_true, beq_iff_eq]
  constructor
  · rintro ⟨p, hp, he⟩
    exact List.mem_map.mpr ⟨p, hp, he⟩
  · intro h
    obtain ⟨p, hp, he⟩ := List.mem_map.mp h
    exact ⟨p, hp, he⟩

theorem alookup_none_iff {β : Type} {k : String} :
    ∀ {m : List (String × β)}, alookup k m = none ↔ k ∉ entryKeys m := by
  intro m
  induction m with
  | nil => simp [alookup, entryKeys]
  | cons p m ih =>
    rw [entryKeys_cons]
    by_cases h : p.1 = k
    · simp [alookup, h]
    · simp only [alookup, if_neg h, ih, List.mem_cons]
      constructor
      · intro hk hc
        rcases hc with hc | hc
        · exact h hc.symm
        · exact hk hc
      · intro hk
        exact fun hc => hk (Or.inr hc)

theorem alookup_mem {β : Type} {m : List (String × β)} {k : String} {v : β}
    (h : alookup k m = some v) : (k, v) ∈ m := by
  induction m with
  | nil => simp [alookup] at h
  | cons p m ih =>
    obtain ⟨k0, v0⟩ := p
    by_cases hp : k0 = k
    · have : v0 = v := by simpa [alookup, hp] using h
      subst hp
      subst this
      exact List.mem_cons_self _ _
    · have : alookup k m = some v := by simpa [alookup, hp] using h
      exact List.mem_cons_of_mem _ (ih this)

theorem mem_alookup {β : Type} {m : List (String × β)} (hnd : (entryKeys m).Nodup)
    {k : String} {v : β} (h : (k, v) ∈ m) : alookup k m = some v := by
  induction m with
  | nil => simp at h
  | cons p m ih =>
    obtain ⟨k0, v0⟩ := p
    rw [entryKeys_cons, List.nodup_cons] at hnd
    rcases List.mem_cons.mp h with h1 | h2
    · obtain ⟨e1, e2⟩ := Prod.mk.injEq .. ▸ h1
      simp [alookup, e1.symm, e2]
    · have hk : k ∈ entryKeys m := mem_entryKeys.mpr ⟨v, h2⟩
      have hne : k0 ≠ k := fun he => hnd.1 (he ▸ hk)
      simp [alookup, hne, ih hnd.2 h2]

theorem alookup_append {β : Type} (m₁ m₂ : List (String × β)) (k : String) :
    alookup k (m₁ ++ m₂) =
      match alookup k m₁ with
      | some v => some v
      | none => alookup k m₂ := by
  induction m₁ with
  | nil => simp [alookup]
  | cons p m ih =>
    by_cases h : p.1 = k
    · simp [alookup, h]
    · simp [alookup, h, ih]

theorem entryKeys_map_update {β : Type} (m : List (String × β)) (k : String) (v : β) :
    entryKeys (m.map (fun p => if p.1 = k then (k, v) else p)) = entryKeys m := by
  induction m with
  | nil => rfl
  | cons p m ih =>
    by_cases h : p.1 = k
    · rw [List.map_cons, if_pos h]
      simp only [entryKeys_cons, ih, h]
    · simp only [List.map_cons, if_neg h, entryKeys_cons, ih]

theorem entryKeys_jsMapSet {β : Type} (m : List (String × β)) (k : String) (v : β) :
    entryKeys (jsMapSet m k v) =
      if hasKey m k then entryKeys m else entryKeys m ++ [k] := by
  unfold jsMapSet
  split
  · next h => simp [h, entryKeys_map_update]
  · next h => simp [h, entryKeys]

theorem nodup_entryKeys_jsMapSet {β : Type} {m : List (String × β)} (k : String) (v : β)
    (h : (entryKeys m).Nodup) : (entryKeys (jsMapSet m k v)).Nodup := by
  rw [entryKeys_jsMapSet]
  split
  · exact h
  · next hk =>
    refine List.Nodup.append h (List.nodup_singleton k) ?_
    intro a ha hb
    simp at hb
    subst hb
    exact hk ((hasKey_iff m a).mpr ha)

theorem alookup_map_update_self {β : Type} {m : List (String × β)} {k : String} (v : β)
    (h : hasKey m k = true) :
    alookup k (m.map (fun p => if p.1 = k then (k, v) else p)) = some v := by
  induction m with
  | nil => simp [hasKey] at h
  | cons p m ih =>
    by_cases hp : p.1 = k
    · simp [alookup, hp]
    · have h' : hasKey m k = true := by
        simp only [hasKey, List.any_cons, Bool.or_eq_true, beq_iff_eq] at h
        rcases h with h1 | h2
        · exact absurd h1 hp
        · exact h2
      simp [alookup, hp, ih h']

theorem alookup_map_update_ne {β : Type} {m : List (String × β)} {k k' : String} (v : β)
    (h : k' ≠ k) :
    alookup k' (m.map (fun p => if p.1 = k then (k, v) else p)) = alookup k' m := by
  induction m with
  | nil => simp [alookup]
  | cons p m ih =>
    by_cases hp : p.1 = k
    · have hpk : p.1 ≠ k' := by rw [hp]; exact fun e => h e.symm
      rw [List.map_cons, if_pos hp]
      show (if k = k' then some v else _) = _
      rw [if_neg (fun e => h e.symm), show alookup k' (p :: m) = alookup k' m from by
        simp [alookup, hpk], ih]
    · rw [List.map_cons, if_neg hp]
      by_cases hpk : p.1 = k'
      · simp [alookup, hpk]
      · simp [alookup, hpk, ih]

theorem alookup_jsMapSet_self {β : Type} (m : List (String × β)) (k : String) (v : β) :
    alookup k (jsMapSet m k v) = some v := by
  unfold jsMapSet
  split
  · next h => exact alookup_map_update_self v h
  · next h =>
    rw [alookup_append]
    have : alookup k m = none :=
      alookup_none_iff.mpr (fun hm => h ((hasKey_iff m k).mpr hm))
    simp [this, alookup]

theorem alookup_jsMapSet_ne {β : Type} (m : List (String × β)) {k k' : String} (v : β)
    (h : k' ≠ k) : alookup k' (jsMapSet m k v) = alookup k' m := by
  unfold jsMapSet
  split
  · exact alookup_map_update_ne v h
  · rw [alookup_append]
    have : alookup k' [(k, v)] = none := by simp [alookup, Ne.symm h]
    rw [this]
    cases alookup k' m <;> simp

theorem update_map_absent {β : Type} {m : List (String × β)} {k : String} {v : β}
    (h : k ∉ entryKeys m) : m.map (fun p => if p.1 = k then (k, v) else p) = m := by
  induction m with
  | nil => rfl
  | cons p m ih =>
    rw [entryKeys_cons, List.mem_cons] at h
    push_neg at h
    have hp : p.1 ≠ k := fun he => h.1 he.symm
    rw [List.map_cons, if_neg hp, ih h.2]

theorem update_map_id {β : Type} {m : List (String × β)} {k : String} {v : β}
    (hnd : (entryKeys m).Nodup) (h : alookup k m = some v) :
    m.map (fun p => if p.1 = k then (k, v) else p) = m := by
  induction m with
  | nil => rfl
  | cons p m ih =>
    obtain ⟨k0, v0⟩ := p
    rw [entryKeys_cons, List.nodup_cons] at hnd
    by_cases hp : k0 = k
    · have hv : v0 = v := by simpa [alookup, hp] using h
      subst hp
      subst hv
      have : m.map (fun p => if p.1 = k0 then (k0, v0) else p) = m :=
        update_map_absent hnd.1
      simp [this]
    · have h' : alookup k m = some v := by simpa [alookup, hp] using h
      simp only [List.map_cons]
      rw [show (if (k0, v0).1 = k then (k, v) else (k0, v0)) = (k0, v0) from if_neg hp,
        ih hnd.2 h']

theorem jsMapSet_eq_self {β : Type} {m : List (String × β)} {k : String} {v : β}
    (hnd : (entryKeys m).Nodup) (h : alookup k m = some v) : jsMapSet m k v = m := by
  unfold jsMapSet
  have hk : hasKey m k = true := by
    by_contra hc
    have hnotmem : k ∉ entryKeys m := fun hm => hc ((hasKey_iff m k).mpr hm)
    exact Option.noConfusion (h.symm.trans (alookup_none_iff.mpr hnotmem))
  rw [if_pos hk]
  exact update_map_id hnd h

theorem mem_jsMapSet {β : Type} {m : List (String × β)} {k : String} {v : β}
    {p : String × β} (h : p ∈ jsMapSet m k v) : p ∈ m ∨ p = (k, v) := by
  unfold jsMapSet at h
  split at h
  · obtain ⟨q, hq, he⟩ := List.mem_map.mp h
    by_cases hk : q.1 = k
    · right
      rw [if_pos hk] at he
      exact he.symm
    · left
      rw [if_neg hk] at he
      exact he ▸ hq
  · rcases List.mem_append.mp h with h1 | h2
    · exact Or.inl h1
    · right
      simpa using h2

theorem stateKeysOf_cons (s : ProcessedMessage) (S : List ProcessedMessage) :
    stateKeysOf (s :: S) = s.messageId :: stateKeysOf S := rfl

theorem pmFind_mem : ∀ {S : List ProcessedMessage} {k : String} {v : ProcessedMessage},
    pmFind k S = some v → v ∈ S ∧ v.messageId = k := by
  intro S
  induction S with
  | nil => intro k v h; simp [pmFind] at h
  | cons s S ih =>
    intro k v h
    by_cases hs : s.messageId = k
    · have : s = v := by simpa [pmFind, hs] using h
      subst this
      exact ⟨List.mem_cons_self _ _, hs⟩
    · have : pmFind k S = some v := by simpa [pmFind, hs] using h
      obtain ⟨h1, h2⟩ := ih this
      exact ⟨List.mem_cons_of_mem _ h1, h2⟩

theorem mem_pmFind {S : List ProcessedMessage} (hnd : (stateKeysOf S).Nodup)
    {v : ProcessedMessage} (h : v ∈ S) : pmFind v.messageId S = some v := by
  induction S with
  | nil => simp at h
  | cons s S ih =>
    rw [stateKeysOf_cons, List.nodup_cons] at hnd
    rcases List.mem_cons.mp h with h1 | h2
    · subst h1
      simp [pmFind]
    · have hne : s.messageId ≠ v.messageId := by
        intro he
        exact hnd.1 (he ▸ List.mem_map.mpr ⟨v, h2, rfl⟩)
      simp [pmFind, hne, ih hnd.2 h2]

theorem pmFind_none_iff {k : String} :
    ∀ {S : List ProcessedMessage}, pmFind k S = none ↔ k ∉ stateKeysOf S := by
  intro S
  induction S with
  | nil => simp [pmFind, stateKeysOf]
  | cons s S ih =>
    rw [stateKeysOf_cons]
    by_cases hs : s.messageId = k
    · simp [pmFind, hs]
    · simp only [pmFind, if_neg hs, ih, List.mem_cons]
      constructor
      · intro hk hc
        rcases hc with hc | hc
        · exact hs hc.symm
        · exact hk hc
      · intro hk
        exact fun hc => hk (Or.inr hc)

theorem pmFind_perm {S₁ S₂ : List ProcessedMessage} (hp : S₁.Perm S₂)
    (hnd : (stateKeysOf S₁).Nodup) (k : String) : pmFind k S₁ = pmFind k S₂ := by
  have hnd₂ : (stateKeysOf S₂).Nodup := by
    have hm : (S₁.map (fun m => m.messageId)).Perm (S₂.map (fun m => m.messageId)) :=
      hp.map _
    exact hm.nodup_iff.mp hnd
  cases hfind : pmFind k S₁ with
  | some v =>
    obtain ⟨hv, hk⟩ := pmFind_mem hfind
    exact (hk ▸ mem_pmFind hnd₂ (hp.mem_iff.mp hv)).symm
  | none =>
    symm
    refine pmFind_none_iff.mpr fun hmem => ?_
    obtain ⟨v, hv, he⟩ := List.mem_map.mp hmem
    exact pmFind_none_iff.mp hfind
      (List.mem_map.mpr ⟨v, hp.mem_iff.mpr hv, he⟩)

theorem alookup_pairs (S : List ProcessedMessage) (k : String) :
    alookup k (S.map (fun m => (m.messageId, m))) = pmFind k S := by
  induction S with
  | nil => rfl
  | cons s S ih =>
    by_cases hs : s.messageId = k
    · simp [alookup, pmFind, hs]
    · simp [alookup, pmFind, hs, ih]

theorem foldl_jsMapSet_fresh :
    ∀ (S : List ProcessedMessage) (acc : List (String × ProcessedMessage)),
    (∀ msg ∈ S, msg.messageId ∉ entryKeys acc) → (stateKeysOf S).Nodup →
    S.foldl (fun m msg => jsMapSet m msg.messageId msg) acc
      = acc ++ S.map (fun msg => (msg.messageId, msg)) := by
  intro S
  induction S with
  | nil => intro acc _ _; simp
  | cons s S ih =>
    intro acc hfresh hnd
    rw [stateKeysOf_cons, List.nodup_cons] at hnd
    have hk : ¬ hasKey acc s.messageId = true :=
      fun hc => (hfresh s (List.mem_cons_self _ _)) ((hasKey_iff _ _).mp hc)
    have hstep : jsMapSet acc s.messageId s = acc ++ [(s.messageId, s)] := by
      unfold jsMapSet
      rw [if_neg hk]
    rw [List.foldl_cons, hstep,
      ih (acc ++ [(s.messageId, s)]) ?_ hnd.2]
    · simp
    · intro msg hmsg
      have hkeys : entryKeys (acc ++ [(s.messageId, s)]) = entryKeys acc ++ [s.messageId] := by
        simp [entryKeys]
      rw [hkeys]
      intro hc
      rcases List.mem_append.mp hc with h1 | h2
      · exact hfresh msg (List.mem_cons_of_mem _ hmsg) h1
      · have : msg.messageId = s.messageId := by simpa using h2
        exact hnd.1 (this ▸ List.mem_map.mpr ⟨msg, hmsg, rfl⟩)

theorem toEntries_eq {S : List ProcessedMessage} (hnd : (stateKeysOf S).Nodup) :
    toEntries S = S.map (fun msg => (msg.messageId, msg)) := by
  unfold toEntries
  simpa using foldl_jsMapSet_fresh S [] (by simp [entryKeys]) hnd

theorem alookup_map_adjust {β : Type} (f : β → β) (j : String) :
    ∀ (m : List (String × β)),
    alookup j (m.map (fun p => if p.1 = j then (p.1, f p.2) else p)) =
      (alookup j m).map f := by
  intro m
  induction m with
  | nil => simp [alookup]
  | cons p m ih =>
    by_cases hp : p.1 = j
    · rw [List.map_cons, if_pos hp]
      simp [alookup, hp, ih]
    · rw [List.map_cons, if_neg hp]
      simp [alookup, hp, ih]

theorem alookup_map_adjust_ne {β : Type} (f : β → β) {j k : String} (h : k ≠ j) :
    ∀ (m : List (String × β)),
    alookup k (m.map (fun p => if p.1 = j then (p.1, f p.2) else p)) = alookup k m := by
  intro m
  induction m with
  | nil => simp [alookup]
  | cons p m ih =>
    by_cases hp : p.1 = j
    · have hpk : p.1 ≠ k := by rw [hp]; exact fun e => h e.symm
      rw [List.map_cons, if_pos hp]
      simp [alookup, hpk, hp ▸ hpk, ih]
    · rw [List.map_cons, if_neg hp]
      by_cases hpk : p.1 = k
      · simp [alookup, hpk]
      · simp [alookup, hpk, ih]

theorem entryKeys_map_adjust {β : Type} (f : β → β) (j : String) (m : List (String × β)) :
    entryKeys (m.map (fun p => if p.1 = j then (p.1, f p.2) else p)) = entryKeys m := by
  induction m with
  | nil => rfl
  | cons p m ih =>
    by_cases hp : p.1 = j
    · rw [List.map_cons, if_pos hp]
      simp only [entryKeys_cons, ih]
    · rw [List.map_cons, if_neg hp]
      simp only [entryKeys_cons, ih]

theorem entryKeys_groupPush (m : List (String × List Attempt)) (a : Attempt) :
    entryKeys (groupPush m a) =
      if hasKey m a.messageId then entryKeys m else entryKeys m ++ [a.messageId] := by
  unfold groupPush
  split
  · next h => simp [h, entryKeys_map_adjust (fun l => l ++ [a]) a.messageId]
  · next h => simp [h, entryKeys]

theorem alookup_groupPush_self (m : List (String × List Attempt)) (a : Attempt) :
    alookup a.messageId (groupPush m a) =
      match alookup a.messageId m with
      | some l => some (l ++ [a])
      | none => some [a] := by
  unfold groupPush
  split
  · next h =>
    rw [alookup_map_adjust (fun l => l ++ [a]) a.messageId m]
    cases hl : alookup a.messageId m with
    | some l => rfl
    | none =>
      exact absurd ((hasKey_iff _ _).mp h) (alookup_none_iff.mp hl)
  · next h =>
    rw [alookup_append]
    have : alookup a.messageId m = none :=
      alookup_none_iff.mpr (fun hm => h ((hasKey_iff _ _).mpr hm))
    simp [this, alookup]

theorem alookup_groupPush_ne (m : List (String × List Attempt)) (a : Attempt)
    {k : String} (h : k ≠ a.messageId) :
    alookup k (groupPush m a) = alookup k m := by
  unfold groupPush
  split
  · exact alookup_map_adjust_ne (fun l => l ++ [a]) h m
  · rw [alookup_append]
    have : alookup k [(a.messageId, [a])] = none := by
      simp [alookup]
      exact fun e => h e.symm
    rw [this]
    cases alookup k m <;> simp

theorem group_foldl_alookup {k : String} (hk : k ≠ "") :
    ∀ (atts : List Attempt) (acc : List (String × List Attempt)),
    alookup k (atts.foldl groupStep acc) =
      match alookup k acc, atts.filter (fun a => a.messageId == k) with
      | some l, f => some (l ++ f)
      | none, [] => none
      | none, f => some f := by
  intro atts
  induction atts with
  | nil =>
    intro acc
    cases h : alookup k acc <;> simp [h]
  | cons a atts ih =>
    intro acc
    rw [List.foldl_cons]
    by_cases ha : a.messageId = ""
    · have hne : (a.messageId == k) = false := by
        simp [ha]
        exact fun e => hk e.symm
      rw [show groupStep acc a = acc from by simp [groupStep, ha]]
      simp only [List.filter_cons, hne]
      exact ih acc
    · rw [show groupStep acc a = groupPush acc a from by simp [groupStep, ha]]
      by_cases hak : a.messageId = k
      · have hkeep : (a.messageId == k) = true := by simp [hak]
        rw [ih (groupPush acc a)]
        subst hak
        rw [alookup_groupPush_self]
        simp only [List.filter_cons, hkeep]
        cases hl : alookup a.messageId acc with
        | some l => simp
        | none =>
          cases hf : atts.filter (fun x => x.messageId == a.messageId) <;> simp
      · have hdrop : (a.messageId == k) = false := by
          simp
          exact fun e => hak e
        rw [ih (groupPush acc a), alookup_groupPush_ne acc a (fun e => hak e.symm)]
        simp only [List.filter_cons, hdrop, Bool.false_eq_true, if_false]

theorem groupByMessageId_alookup (atts : List Attempt) {k : String} (hk : k ≠ "") :
    alookup k (groupByMessageId atts) =
      match atts.filter (fun a => a.messageId == k) with
      | [] => none
      | f => some f := by
  unfold groupByMessageId
  rw [group_foldl_alookup hk atts []]
  cases hf : atts.filter (fun a => a.messageId == k) <;> simp [alookup]

theorem nodup_entryKeys_groupPush {m : List (String × List Attempt)} (a : Attempt)
    (h : (entryKeys m).Nodup) : (entryKeys (groupPush m a)).Nodup := by
  rw [entryKeys_groupPush]
  split
  · exact h
  · next hkk =>
    refine List.Nodup.append h (List.nodup_singleton _) ?_
    intro x hx hb
    simp at hb
    subst hb
    exact hkk ((hasKey_iff _ _).mpr hx)

theorem groups_keys_nodup_aux :
    ∀ (atts : List Attempt) (acc : List (String × List Attempt)),
    (entryKeys acc).Nodup → (entryKeys (atts.foldl groupStep acc)).Nodup := by
  intro atts
  induction atts with
  | nil => intro acc h; exact h
  | cons a atts ih =>
    intro acc h
    rw [List.foldl_cons]
    refine ih _ ?_
    unfold groupStep
    split
    · exact h
    · exact nodup_entryKeys_groupPush a h

theorem groups_keys_nodup (atts : List Attempt) :
    (entryKeys (groupByMessageId atts)).Nodup :=
  groups_keys_nodup_aux atts [] (by simp [entryKeys])

theorem groups_keys_ne_empty_aux :
    ∀ (atts : List Attempt) (acc : List (String × List Attempt)),
    (∀ x ∈ entryKeys acc, x ≠ "") →
    ∀ x ∈ entryKeys (atts.foldl groupStep acc), x ≠ "" := by
  intro atts
  induction atts with
  | nil => intro acc h; exact h
  | cons a atts ih =>
    intro acc h
    rw [List.foldl_cons]
    refine ih _ ?_
    intro x hx
    unfold groupStep at hx
    split at hx
    · exact h x hx
    · next ha =>
      rw [entryKeys_groupPush] at hx
      split at hx
      · exact h x hx
      · rcases List.mem_append.mp hx with h1 | h2
        · exact h x h1
        · have : x = a.messageId := by simpa using h2
          exact this ▸ ha

theorem groups_keys_ne_empty (atts : List Attempt) :
    ∀ x ∈ entryKeys (groupByMessageId atts), x ≠ "" :=
  groups_keys_ne_empty_aux atts [] (by simp [entryKeys])

theorem group_mem_eq_filter {atts : List Attempt} {p : String × List Attempt}
    (hp : p ∈ groupByMessageId atts) :
    p.1 ≠ "" ∧ p.2 = atts.filter (fun a => a.messageId == p.1) ∧ p.2 ≠ [] := by
  have hkey : p.1 ∈ entryKeys (groupByMessageId atts) :=
    List.mem_map.mpr ⟨p, hp, rfl⟩
  have hne : p.1 ≠ "" := groups_keys_ne_empty atts p.1 hkey
  have halo : alookup p.1 (groupByMessageId atts) = some p.2 := by
    have := mem_alookup (groups_keys_nodup atts) (k := p.1) (v := p.2)
    exact this (by simpa [Prod.mk.eta] using hp)
  rw [groupByMessageId_alookup atts hne] at halo
  refine ⟨hne, ?_, ?_⟩
  · cases hf : atts.filter (fun a => a.messageId == p.1) with
    | nil => rw [hf] at halo; exact Option.noConfusion halo
    | cons b f =>
      rw [hf] at halo
      simpa using halo.symm
  · intro hempty
    cases hf : atts.filter (fun a => a.messageId == p.1) with
    | nil => rw [hf] at halo; exact Option.noConfusion halo
    | cons b f =>
      rw [hf] at halo
      have : p.2 = b :: f := by simpa using halo.symm
      rw [this] at hempty
      exact List.noConfusion hempty

theorem group_coverage {atts : List Attempt} {a : Attempt} (ha : a ∈ atts)
    (hm : a.messageId ≠ "") :
    ∃ p ∈ groupByMessageId atts, p.1 = a.messageId ∧ a ∈ p.2 := by
  have hmemf : a ∈ atts.filter (fun x => x.messageId == a.messageId) :=
    List.mem_filter.mpr ⟨ha, by simp⟩
  have hne : atts.filter (fun x => x.messageId == a.messageId) ≠ [] :=
    fun he => by rw [he] at hmemf; exact (List.not_mem_nil a) hmemf
  have halo : alookup a.messageId (groupByMessageId atts) =
      some (atts.filter (fun x => x.messageId == a.messageId)) := by
    rw [groupByMessageId_alookup atts hm]
    cases hf : atts.filter (fun x => x.messageId == a.messageId) with
    | nil => exact absurd hf hne
    | cons b f => rfl
  exact ⟨(a.messageId, atts.filter (fun x => x.messageId == a.messageId)),
    alookup_mem halo, rfl, hmemf⟩

theorem deriveMessage_messageId (d em : List (String × String)) (k : String)
    (g : List Attempt) : (deriveMessage d em k g).messageId = k := rfl

theorem deriveMessage_attempts (d em : List (String × String)) (k : String)
    (g : List Attempt) :
    (deriveMessage d em k g).attempts = List.insertionSort timeLe g := rfl

theorem updateExisting_messageId (ids : List String) (s nm : ProcessedMessage) :
    (updateExisting ids s nm).messageId = s.messageId := by
  simp only [updateExisting]
  split <;> rfl

theorem updateExisting_documentId (ids : List String) (s nm : ProcessedMessage) :
    (updateExisting ids s nm).documentId = s.documentId := by
  simp only [updateExisting]
  split <;> rfl

theorem updateExisting_parsingError (ids : List String) (s nm : ProcessedMessage) :
    (updateExisting ids s nm).parsingError = s.parsingError := by
  simp only [updateExisting]
  split <;> rfl

theorem updateExisting_largePayloadFailure (ids : List String) (s nm : ProcessedMessage) :
    (updateExisting ids s nm).largePayloadFailure = s.largePayloadFailure := by
  simp only [updateExisting]
  split <;> rfl

theorem updateExisting_hookId (ids : List String) (s nm : ProcessedMessage) :
    (updateExisting ids s nm).hookId = s.hookId := by
  simp only [updateExisting]
  split <;> rfl

theorem contains_iff_mem (l : List String) (a : String) : l.contains a = true ↔ a ∈ l :=
  List.elem_iff

theorem stateKeysOf_processedOf (atts : List Attempt) (d : List (String × String))
    (e : List MessageWithError) :
    stateKeysOf (processedOf atts d e) = entryKeys (groupByMessageId atts) := by
  unfold stateKeysOf processedOf entryKeys
  rw [List.map_map]
  exact List.map_congr_left fun p _ => rfl

theorem processedOf_keys_nodup (atts : List Attempt) (d : List (String × String))
    (e : List MessageWithError) : (stateKeysOf (processedOf atts d e)).Nodup := by
  rw [stateKeysOf_processedOf]
  exact groups_keys_nodup atts

theorem pmFind_processedOf (atts : List Attempt) (d : List (String × String))
    (e : List MessageWithError) (k : String) :
    pmFind k (processedOf atts d e) =
      (alookup k (groupByMessageId atts)).map
        (fun g => deriveMessage d (errMapOf e) k g) := by
  unfold processedOf
  generalize groupByMessageId atts = m
  induction m with
  | nil => rfl
  | cons p m ih =>
    by_cases hp : p.1 = k
    · simp [pmFind, alookup, deriveMessage_messageId, hp]
    · simp [pmFind, alookup, deriveMessage_messageId, hp, ih]

theorem mergeStep_alookup_ne (sk ids : List String)
    {acc : List (String × ProcessedMessage)} {nm : ProcessedMessage} {k : String}
    (h : k ≠ nm.messageId) :
    alookup k (mergeStep sk ids acc nm) = alookup k acc := by
  unfold mergeStep
  split
  · cases halo : alookup nm.messageId acc with
    | some e => exact alookup_jsMapSet_ne acc _ h
    | none => rfl
  · exact alookup_jsMapSet_ne acc _ h

theorem mergeFold_alookup_other (sk ids : List String) :
    ∀ (l : List ProcessedMessage) (acc : List (String × ProcessedMessage)) (k : String),
    (∀ nm ∈ l, nm.messageId ≠ k) →
    alookup k (l.foldl (mergeStep sk ids) acc) = alookup k acc := by
  intro l
  induction l with
  | nil => intro acc k _; rfl
  | cons hd tl ih =>
    intro acc k h
    rw [List.foldl_cons, ih _ k (fun nm hnm => h nm (List.mem_cons_of_mem _ hnm))]
    exact mergeStep_alookup_ne sk ids (fun he => h hd (List.mem_cons_self _ _) he.symm)

theorem mergeStep_keys_nodup (sk ids : List String)
    {acc : List (String × ProcessedMessage)} (nm : ProcessedMessage)
    (h : (entryKeys acc).Nodup) : (entryKeys (mergeStep sk ids acc nm)).Nodup := by
  unfold mergeStep
  split
  · cases halo : alookup nm.messageId acc with
    | some e => exact nodup_entryKeys_jsMapSet _ _ h
    | none => exact h
  · exact nodup_entryKeys_jsMapSet _ _ h

theorem mergeFold_keys_nodup (sk ids : List String) :
    ∀ (l : List ProcessedMessage) (acc : List (String × ProcessedMessage)),
    (entryKeys acc).Nodup →
    (entryKeys (l.foldl (mergeStep sk ids) acc)).Nodup := by
  intro l
  induction l with
  | nil => intro acc h; exact h
  | cons hd tl ih =>
    intro acc h
    rw [List.foldl_cons]
    exact ih _ (mergeStep_keys_nodup sk ids hd h)

theorem mergeStep_inv (sk ids : List String)
    {acc : List (String × ProcessedMessage)} (nm : ProcessedMessage)
    (hinv : ∀ p ∈ acc, p.2.messageId = p.1) :
    ∀ p ∈ mergeStep sk ids acc nm, p.2.messageId = p.1 := by
  intro p hp
  unfold mergeStep at hp
  split at hp
  · cases halo : alookup nm.messageId acc with
    | some e =>
      rw [halo] at hp
      rcases mem_jsMapSet hp with h1 | h2
      · exact hinv p h1
      · rw [h2]
        simp only [updateExisting_messageId]
        exact hinv (nm.messageId, e) (alookup_mem halo)
    | none =>
      rw [halo] at hp
      exact hinv p hp
  · rcases mem_jsMapSet hp with h1 | h2
    · exact hinv p h1
    · rw [h2]

theorem mergeFold_inv (sk ids : List String) :
    ∀ (l : List ProcessedMessage) (acc : List (String × ProcessedMessage)),
    (∀ p ∈ acc, p.2.messageId = p.1) →
    ∀ p ∈ l.foldl (mergeStep sk ids) acc, p.2.messageId = p.1 := by
  intro l
  induction l with
  | nil => intro acc h; exact h
  | cons hd tl ih =>
    intro acc h
    rw [List.foldl_cons]
    exact ih _ (mergeStep_inv sk ids hd h)

theorem mergeFold_alookup_self (sk ids : List String) :
    ∀ (l : List ProcessedMessage),
    (l.map (fun m => m.messageId)).Nodup →
    ∀ {nm : ProcessedMessage}, nm ∈ l →
    ∀ (acc : List (String × ProcessedMessage)),
    alookup nm.messageId (l.foldl (mergeStep sk ids) acc) =
      if sk.contains nm.messageId then
        match alookup nm.messageId acc with
        | some e => some (updateExisting ids e nm)
        | none => none
      else some nm := by
  intro l
  induction l with
  | nil => intro _ nm hnm; simp at hnm
  | cons hd tl ih =>
    intro hl nm hnm acc
    rw [List.map_cons, List.nodup_cons] at hl
    rcases List.mem_cons.mp hnm with h1 | h2
    · subst h1
      rw [List.foldl_cons]
      have hrest : ∀ x ∈ tl, x.messageId ≠ nm.messageId := by
        intro x hx he
        exact hl.1 (he ▸ List.mem_map.mpr ⟨x, hx, rfl⟩)
      rw [mergeFold_alookup_other sk ids tl _ _ hrest]
      unfold mergeStep
      split
      · cases halo : alookup nm.messageId acc with
        | some e => simp [halo, alookup_jsMapSet_self]
        | none => simp [halo]
      · simp [alookup_jsMapSet_self]
    · have hne : hd.messageId ≠ nm.messageId := by
        intro he
        exact hl.1 (he ▸ List.mem_map.mpr ⟨nm, h2, rfl⟩)
      rw [List.foldl_cons, ih hl.2 h2 _,
        mergeStep_alookup_ne sk ids (fun he => hne he.symm)]

theorem mem_vals_iff {m : List (String × ProcessedMessage)}
    (hnd : (entryKeys m).Nodup) (hinv : ∀ p ∈ m, p.2.messageId = p.1)
    (v : ProcessedMessage) :
    v ∈ m.map (fun p => p.2) ↔ alookup v.messageId m = some v := by
  constructor
  · intro h
    obtain ⟨p, hp, he⟩ := List.mem_map.mp h
    have hk : p.2.messageId = p.1 := hinv p hp
    rw [← he, hk]
    exact mem_alookup hnd (by simpa [Prod.mk.eta] using hp)
  · intro h
    exact List.mem_map.mpr ⟨(v.messageId, v), alookup_mem h, rfl⟩

theorem stateKeysOf_vals {m : List (String × ProcessedMessage)}
    (hinv : ∀ p ∈ m, p.2.messageId = p.1) :
    stateKeysOf (m.map (fun p => p.2)) = entryKeys m := by
  unfold stateKeysOf entryKeys
  rw [List.map_map]
  exact List.map_congr_left fun p hp => hinv p hp

theorem pmFind_vals {m : List (String × ProcessedMessage)}
    (hnd : (entryKeys m).Nodup) (hinv : ∀ p ∈ m, p.2.messageId = p.1) (k : String) :
    pmFind k (m.map (fun p => p.2)) = alookup k m := by
  cases halo : alookup k m with
  | some v =>
    have hmem : (k, v) ∈ m := alookup_mem halo
    have hk : v.messageId = k := hinv (k, v) hmem
    have hvals : v ∈ m.map (fun p => p.2) := List.mem_map.mpr ⟨(k, v), hmem, rfl⟩
    have hndv : (stateKeysOf (m.map (fun p => p.2))).Nodup := by
      rw [stateKeysOf_vals hinv]; exact hnd
    have := mem_pmFind hndv hvals
    rwa [hk] at this
  | none =>
    refine pmFind_none_iff.mpr fun hmem => ?_
    rw [stateKeysOf_vals hinv] at hmem
    exact alookup_none_iff.mp halo hmem

theorem entryKeys_toEntries {S : List ProcessedMessage} (hS : (stateKeysOf S).Nodup) :
    entryKeys (toEntries S) = stateKeysOf S := by
  rw [toEntries_eq hS]
  unfold entryKeys stateKeysOf
  rw [List.map_map]
  rfl

theorem toEntries_inv {S : List ProcessedMessage} (hS : (stateKeysOf S).Nodup) :
    ∀ p ∈ toEntries S, p.2.messageId = p.1 := by
  rw [toEntries_eq hS]
  intro p hp
  obtain ⟨msg, _, he⟩ := List.mem_map.mp hp
  rw [← he]

theorem alookup_toEntries {S : List ProcessedMessage} (hS : (stateKeysOf S).Nodup)
    (k : String) : alookup k (toEntries S) = pmFind k S := by
  rw [toEntries_eq hS, alookup_pairs]

theorem processApiData_not_incremental (S : List ProcessedMessage) (atts : List Attempt)
    (d : List (String × String)) (e : List MessageWithError) :
    processApiData S atts d e false =
      List.insertionSort newestGe (processedOf atts d e) := by
  unfold processApiData
  simp

theorem processApiData_nil (atts : List Attempt) (d : List (String × String))
    (e : List MessageWithError) (b : Bool) :
    processApiData [] atts d e b =
      List.insertionSort newestGe (processedOf atts d e) := by
  unfold processApiData
  simp

theorem processApiData_incremental {S : List ProcessedMessage} (hS : S ≠ [])
    (atts : List Attempt) (d : List (String × String)) (e : List MessageWithError) :
    processApiData S atts d e true =
      List.insertionSort newestGe
        (((List.insertionSort newestGe (processedOf atts d e)).foldl
          (mergeStep (stateKeysOf S) (stateIds S)) (toEntries S)).map (fun p => p.2)) := by
  unfold processApiData
  have h : (0 < S.length) := List.length_pos.mpr hS
  simp [h]

theorem processApiData_sorted (S : List ProcessedMessage) (atts : List Attempt)
    (d : List (String × String)) (e : List MessageWithError) (b : Bool) :
    (processApiData S atts d e b).Sorted newestGe := by
  cases b
  · rw [processApiData_not_incremental]
    exact List.sorted_insertionSort newestGe _
  · cases S with
    | nil =>
      rw [processApiData_nil]
      exact List.sorted_insertionSort newestGe _
    | cons s S' =>
      rw [processApiData_incremental (List.cons_ne_nil s S')]
      exact List.sorted_insertionSort newestGe _

theorem sort_keys_nodup {l : List ProcessedMessage} (h : (stateKeysOf l).Nodup) :
    (stateKeysOf (List.insertionSort newestGe l)).Nodup := by
  have hp : (List.insertionSort newestGe l).Perm l := List.perm_insertionSort newestGe l
  have hm : ((List.insertionSort newestGe l).map (fun m => m.messageId)).Perm
      (l.map (fun m => m.messageId)) := hp.map _
  exact hm.nodup_iff.mpr h

theorem processApiData_keys_nodup {S : List ProcessedMessage}
    (hS : (stateKeysOf S).Nodup) (atts : List Attempt) (d : List (String × String))
    (e : List MessageWithError) (b : Bool) :
    (stateKeysOf (processApiData S atts d e b)).Nodup := by
  cases b
  · rw [processApiData_not_incremental]
    exact sort_keys_nodup (processedOf_keys_nodup atts d e)
  · by_cases hne : S = []
    · subst hne
      rw [processApiData_nil]
      exact sort_keys_nodup (processedOf_keys_nodup atts d e)
    · rw [processApiData_incremental hne]
      refine sort_keys_nodup ?_
      have hnd0 : (entryKeys (toEntries S)).Nodup := by
        rw [entryKeys_toEntries hS]
        exact hS
      have hinv0 := toEntries_inv hS
      have hndF := mergeFold_keys_nodup (stateKeysOf S) (stateIds S)
        (List.insertionSort newestGe (processedOf atts d e)) (toEntries S) hnd0
      have hinvF := mergeFold_inv (stateKeysOf S) (stateIds S)
        (List.insertionSort newestGe (processedOf atts d e)) (toEntries S) hinv0
      rw [stateKeysOf_vals hinvF]
      exact hndF

theorem processApiData_pmFind {S : List ProcessedMessage} (hS : (stateKeysOf S).Nodup)
    (atts : List Attempt) (d : List (String × String)) (e : List MessageWithError)
    (k : String) :
    pmFind k (processApiData S atts d e true) = mergeLookup S atts d e k := by
  have hpknd : (stateKeysOf (List.insertionSort newestGe (processedOf atts d e))).Nodup :=
    sort_keys_nodup (processedOf_keys_nodup atts d e)
  have hpp : ∀ j, pmFind j (List.insertionSort newestGe (processedOf atts d e)) =
      pmFind j (processedOf atts d e) :=
    fun j => pmFind_perm (List.perm_insertionSort newestGe _) hpknd j
  by_cases hne : S = []
  · subst hne
    rw [processApiData_nil, pmFind_perm (List.perm_insertionSort newestGe _) hpknd k]
    unfold mergeLookup
    rw [show pmFind k ([] : List ProcessedMessage) = none from rfl]
    cases h : pmFind k (processedOf atts d e) <;> simp [h]
  · rw [processApiData_incremental hne]
    have hnd0 : (entryKeys (toEntries S)).Nodup := by
      rw [entryKeys_toEntries hS]
      exact hS
    have hinv0 := toEntries_inv hS
    have hndF := mergeFold_keys_nodup (stateKeysOf S) (stateIds S)
      (List.insertionSort newestGe (processedOf atts d e)) (toEntries S) hnd0
    have hinvF := mergeFold_inv (stateKeysOf S) (stateIds S)
      (List.insertionSort newestGe (processedOf atts d e)) (toEntries S) hinv0
    have hvk : (stateKeysOf
        (((List.insertionSort newestGe (processedOf atts d e)).foldl
          (mergeStep (stateKeysOf S) (stateIds S)) (toEntries S)).map (fun p => p.2))).Nodup := by
      rw [stateKeysOf_vals hinvF]
      exact hndF
    rw [pmFind_perm (List.perm_insertionSort newestGe _) (sort_keys_nodup hvk) k]
    rw [pmFind_vals hndF hinvF k]
    cases hfp : pmFind k (List.insertionSort newestGe (processedOf atts d e)) with
    | some nm =>
      obtain ⟨hnmmem, hnmk⟩ := pmFind_mem hfp
      subst hnmk
      rw [mergeFold_alookup_self (stateKeysOf S) (stateIds S) _ hpknd hnmmem (toEntries S),
        alookup_toEntries hS]
      have hfproc : pmFind nm.messageId (processedOf atts d e) = some nm :=
        (hpp nm.messageId).symm.trans hfp
      unfold mergeLookup
      rw [hfproc]
      cases hfs : pmFind nm.messageId S with
      | some s =>
        have hmemk : nm.messageId ∈ stateKeysOf S := by
          by_contra hc
          exact Option.noConfusion (hfs.symm.trans (pmFind_none_iff.mpr hc))
        have hc : (stateKeysOf S).contains nm.messageId = true :=
          (contains_iff_mem _ _).mpr hmemk
        rw [if_pos hc]
      | none =>
        have hc : ¬ ((stateKeysOf S).contains nm.messageId = true) := by
          rw [contains_iff_mem]
          exact pmFind_none_iff.mp hfs
        rw [if_neg hc]
    | none =>
      have hnone : ∀ x ∈ List.insertionSort newestGe (processedOf atts d e),
          x.messageId ≠ k := by
        intro x hx he
        exact pmFind_none_iff.mp hfp (he ▸ List.mem_map.mpr ⟨x, hx, rfl⟩)
      rw [mergeFold_alookup_other (stateKeysOf S) (stateIds S) _ _ _ hnone,
        alookup_toEntries hS]
      have hfproc : pmFind k (processedOf atts d e) = none :=
        (hpp k).symm.trans hfp
      unfold mergeLookup
      rw [hfproc]
      cases pmFind k S <;> simp

theorem processApiData_mem_iff {S : List ProcessedMessage} (hS : (stateKeysOf S).Nodup)
    (atts : List Attempt) (d : List (String × String)) (e : List MessageWithError)
    (v : ProcessedMessage) :
    v ∈ processApiData S atts d e true ↔ mergeLookup S atts d e v.messageId = some v := by
  constructor
  · intro h
    have hnd := processApiData_keys_nodup hS atts d e true
    have := mem_pmFind hnd h
    rwa [processApiData_pmFind hS] at this
  · intro h
    have heq := processApiData_pmFind hS atts d e v.messageId
    rw [h] at heq
    exact (pmFind_mem heq).1

theorem mem_stateIds {S : List ProcessedMessage} {x : String} :
    x ∈ stateIds S ↔ ∃ v ∈ S, x ∈ v.attempts.map (fun a => a.id) := by
  unfold stateIds
  rw [List.mem_flatten]
  constructor
  · rintro ⟨l, hl, hx⟩
    obtain ⟨v, hv, he⟩ := List.mem_map.mp hl
    exact ⟨v, hv, he ▸ hx⟩
  · rintro ⟨v, hv, hx⟩
    exact ⟨v.attempts.map (fun a => a.id), List.mem_map.mpr ⟨v, hv, rfl⟩, hx⟩

theorem processedOf_key_ne_empty {atts : List Attempt} {d : List (String × String)}
    {e : List MessageWithError} {nm : ProcessedMessage} (h : nm ∈ processedOf atts d e) :
    nm.messageId ≠ "" := by
  have : nm.messageId ∈ stateKeysOf (processedOf atts d e) :=
    List.mem_map.mpr ⟨nm, h, rfl⟩
  rw [stateKeysOf_processedOf] at this
  exact groups_keys_ne_empty atts nm.messageId this

theorem processed_attempts_sub {atts : List Attempt} {d : List (String × String)}
    {e : List MessageWithError} {nm : ProcessedMessage} (h : nm ∈ processedOf atts d e) :
    ∀ a ∈ nm.attempts, a ∈ atts ∧ a.messageId = nm.messageId := by
  intro a ha
  obtain ⟨p, hp, he⟩ := List.mem_map.mp h
  have hfil := group_mem_eq_filter hp
  rw [← he, deriveMessage_attempts] at ha
  rw [List.mem_insertionSort] at ha
  rw [hfil.2.1] at ha
  have := List.mem_filter.mp ha
  refine ⟨this.1, ?_⟩
  rw [← he, deriveMessage_messageId]
  exact beq_iff_eq.mp this.2

theorem updateExisting_attempts_perm (ids : List String) (s nm : ProcessedMessage) :
    (updateExisting ids s nm).attempts.Perm
      (s.attempts ++ nm.attempts.filter (fun a => !(ids.contains a.id))) := by
  simp only [updateExisting]
  split
  · exact List.perm_insertionSort timeLe _
  · next h =>
    have hf : nm.attempts.filter (fun a => !(ids.contains a.id)) = [] :=
      List.eq_nil_of_length_eq_zero (Nat.eq_zero_of_not_pos h)
    rw [hf, List.append_nil]

theorem updateExisting_eq_self_of_filter_nil {ids : List String} {s nm : ProcessedMessage}
    (h : nm.attempts.filter (fun a => !(ids.contains a.id)) = []) :
    updateExisting ids s nm = s := by
  simp only [updateExisting, h]
  rfl

theorem merge_ids_superset {S : List ProcessedMessage} (hS : (stateKeysOf S).Nodup)
    (atts : List Attempt) (d : List (String × String)) (e : List MessageWithError)
    {s : ProcessedMessage} (hs : s ∈ S) :
    ∃ v ∈ processApiData S atts d e true, v.messageId = s.messageId ∧
      ∀ x ∈ s.attempts.map (fun a => a.id), x ∈ v.attempts.map (fun a => a.id) := by
  have hfS : pmFind s.messageId S = some s := mem_pmFind hS hs
  cases hfp : pmFind s.messageId (processedOf atts d e) with
  | none =>
    have hml : mergeLookup S atts d e s.messageId = some s := by
      unfold mergeLookup
      rw [hfS, hfp]
    exact ⟨s, (processApiData_mem_iff hS atts d e s).mpr hml, rfl, fun x hx => hx⟩
  | some nm =>
    have hml : mergeLookup S atts d e s.messageId =
        some (updateExisting (stateIds S) s nm) := by
      unfold mergeLookup
      rw [hfS, hfp]
    have hmid : (updateExisting (stateIds S) s nm).messageId = s.messageId :=
      updateExisting_messageId _ _ _
    refine ⟨updateExisting (stateIds S) s nm,
      (processApiData_mem_iff hS atts d e _).mpr (hmid ▸ hml), hmid, ?_⟩
    intro x hx
    have hperm := (updateExisting_attempts_perm (stateIds S) s nm).map (fun a => a.id)
    rw [hperm.mem_iff, List.map_append]
    exact List.mem_append.mpr (Or.inl hx)

theorem merge_ids_bound {S : List ProcessedMessage} (hS : (stateKeysOf S).Nodup)
    (atts : List Attempt) (d : List (String × String)) (e : List MessageWithError)
    {v : ProcessedMessage} (hv : v ∈ processApiData S atts d e true) :
    ∀ x ∈ v.attempts.map (fun a => a.id), x ∈ stateIds S ∨ ∃ a ∈ atts, a.id = x := by
  intro x hx
  have hml := (processApiData_mem_iff hS atts d e v).mp hv
  unfold mergeLookup at hml
  cases hfS : pmFind v.messageId S with
  | some s =>
    cases hfp : pmFind v.messageId (processedOf atts d e) with
    | some nm =>
      rw [hfS, hfp] at hml
      have hv2 : v = updateExisting (stateIds S) s nm := by
        exact (Option.some.injEq .. ▸ hml).symm
      have hperm := (updateExisting_attempts_perm (stateIds S) s nm).map (fun a => a.id)
      rw [hv2] at hx
      rw [hperm.mem_iff, List.map_append, List.mem_append] at hx
      rcases hx with h1 | h2
      · exact Or.inl (mem_stateIds.mpr ⟨s, (pmFind_mem hfS).1, h1⟩)
      · obtain ⟨a, ha, he⟩ := List.mem_map.mp h2
        have hmem := List.mem_filter.mp ha
        have := processed_attempts_sub (pmFind_mem hfp).1 a hmem.1
        exact Or.inr ⟨a, this.1, he⟩
    | none =>
      rw [hfS, hfp] at hml
      have hv2 : v = s := by exact (Option.some.injEq .. ▸ hml).symm
      rw [hv2] at hx
      exact Or.inl (mem_stateIds.mpr ⟨s, (pmFind_mem hfS).1, hx⟩)
  | none =>
    cases hfp : pmFind v.messageId (processedOf atts d e) with
    | some nm =>
      rw [hfS, hfp] at hml
      have hv2 : v = nm := by exact (Option.some.injEq .. ▸ hml).symm
      rw [hv2] at hx
      obtain ⟨a, ha, he⟩ := List.mem_map.mp hx
      have := processed_attempts_sub (pmFind_mem hfp).1 a ha
      exact Or.inr ⟨a, this.1, he⟩
    | none =>
      rw [hfS, hfp] at hml
      exact Option.noConfusion hml

theorem merge_ids_coverage {S : List ProcessedMessage} (hS : (stateKeysOf S).Nodup)
    (atts : List Attempt) (d : List (String × String)) (e : List MessageWithError)
    {a : Attempt} (ha : a ∈ atts) (hm : a.messageId ≠ "") :
    a.id ∈ stateIds (processApiData S atts d e true) := by
  obtain ⟨p, hp, hpk, hpa⟩ := group_coverage ha hm
  have halo : alookup p.1 (groupByMessageId atts) = some p.2 :=
    mem_alookup (groups_keys_nodup atts) (by simpa [Prod.mk.eta] using hp)
  have hfp : pmFind a.messageId (processedOf atts d e) =
      some (deriveMessage d (errMapOf e) a.messageId p.2) := by
    rw [pmFind_processedOf, ← hpk, halo]
    rfl
  have hanm : a ∈ (deriveMessage d (errMapOf e) a.messageId p.2).attempts := by
    rw [deriveMessage_attempts, List.mem_insertionSort]
    exact hpa
  cases hfS : pmFind a.messageId S with
  | none =>
    have hml : mergeLookup S atts d e a.messageId =
        some (deriveMessage d (errMapOf e) a.messageId p.2) := by
      unfold mergeLookup
      rw [hfS, hfp]
    have hmem : deriveMessage d (errMapOf e) a.messageId p.2 ∈
        processApiData S atts d e true :=
      (processApiData_mem_iff hS atts d e _).mpr
        (deriveMessage_messageId d (errMapOf e) a.messageId p.2 ▸ hml)
    exact mem_stateIds.mpr ⟨_, hmem, List.mem_map.mpr ⟨a, hanm, rfl⟩⟩
  | some s =>
    by_cases hin : (stateIds S).contains a.id = true
    · have hidS : a.id ∈ stateIds S := (contains_iff_mem _ _).mp hin
      obtain ⟨s', hs', hid'⟩ := mem_stateIds.mp hidS
      obtain ⟨v, hv, _, hsup⟩ := merge_ids_superset hS atts d e hs'
      exact mem_stateIds.mpr ⟨v, hv, hsup a.id hid'⟩
    · have hml : mergeLookup S atts d e a.messageId =
          some (updateExisting (stateIds S) s (deriveMessage d (errMapOf e) a.messageId p.2)) := by
        unfold mergeLookup
        rw [hfS, hfp]
      have hsk : s.messageId = a.messageId := (pmFind_mem hfS).2
      have hmem : updateExisting (stateIds S) s (deriveMessage d (errMapOf e) a.messageId p.2) ∈
          processApiData S atts d e true :=
        (processApiData_mem_iff hS atts d e _).mpr (by
          rw [updateExisting_messageId, hsk]
          exact hml)
      have hfilmem : a ∈ (deriveMessage d (errMapOf e) a.messageId p.2).attempts.filter
          (fun x => !((stateIds S).contains x.id)) := by
        refine List.mem_filter.mpr ⟨hanm, ?_⟩
        have hin2 : (stateIds S).contains a.id = false := by
          cases hcc : (stateIds S).contains a.id
          · rfl
          · exact absurd hcc hin
        rw [hin2]
        rfl
      have hperm := (updateExisting_attempts_perm (stateIds S) s
        (deriveMessage d (errMapOf e) a.messageId p.2)).map (fun x => x.id)
      refine mem_stateIds.mpr ⟨_, hmem, ?_⟩
      rw [hperm.mem_iff, List.map_append, List.mem_append]
      exact Or.inr (List.mem_map.mpr ⟨a, hfilmem, rfl⟩)

theorem vals_pairs : ∀ (S : List ProcessedMessage),
    (S.map (fun msg => (msg.messageId, msg))).map (fun p => p.2) = S := by
  intro S
  induction S with
  | nil => rfl
  | cons s S ih => simp [ih]

theorem vals_toEntries {S : List ProcessedMessage} (hS : (stateKeysOf S).Nodup) :
    (toEntries S).map (fun p => p.2) = S := by
  rw [toEntries_eq hS]
  exact vals_pairs S

theorem mergeFold_id (sk ids : List String) :
    ∀ (l : List ProcessedMessage) (acc : List (String × ProcessedMessage)),
    (entryKeys acc).Nodup →
    (∀ nm ∈ l, sk.contains nm.messageId = true ∧
      ∃ w, alookup nm.messageId acc = some w ∧ updateExisting ids w nm = w) →
    l.foldl (mergeStep sk ids) acc = acc := by
  intro l
  induction l with
  | nil => intro acc _ _; rfl
  | cons hd tl ih =>
    intro acc hnd h
    obtain ⟨hc, w, hw, hupd⟩ := h hd (List.mem_cons_self _ _)
    rw [List.foldl_cons]
    have hstep : mergeStep sk ids acc hd = acc := by
      unfold mergeStep
      rw [if_pos hc, hw]
      show jsMapSet acc hd.messageId (updateExisting ids w hd) = acc
      rw [hupd]
      exact jsMapSet_eq_self hnd hw
    rw [hstep]
    exact ih acc hnd (fun nm hnm => h nm (List.mem_cons_of_mem _ hnm))

/-- Claim C1: incremental merging is idempotent. For a well-formed aggregate
state (one aggregate per messageId, as the engine itself produces), merging a
batch incrementally a second time, with the same attempts, documentIdMap and
parsingErrors, returns exactly the collection obtained after the first merge:
every member-attempt list, every derived field, and the display order are
unchanged. -/
theorem processApiData_incremental_idempotent
    (S : List ProcessedMessage) (atts : List Attempt) (d : List (String × String))
    (e : List MessageWithError) (hS : (stateKeysOf S).Nodup) :
    processApiData (processApiData S atts d e true) atts d e true =
      processApiData S atts d e true := by
  have hS' : (stateKeysOf (processApiData S atts d e true)).Nodup :=
    processApiData_keys_nodup hS atts d e true
  by_cases hne : processApiData S atts d e true = []
  · rw [hne, processApiData_nil]
    cases hproc : processedOf atts d e with
    | nil => rfl
    | cons nm rest =>
      exfalso
      have hnm : nm ∈ processedOf atts d e := hproc ▸ List.mem_cons_self _ _
      have hfp : pmFind nm.messageId (processedOf atts d e) = some nm :=
        mem_pmFind (processedOf_keys_nodup atts d e) hnm
      have hchar := processApiData_pmFind hS atts d e nm.messageId
      rw [hne] at hchar
      unfold mergeLookup at hchar
      rw [hfp] at hchar
      cases hfS : pmFind nm.messageId S <;> rw [hfS] at hchar <;>
        simp [pmFind] at hchar
  · rw [processApiData_incremental hne]
    have hfold := mergeFold_id (stateKeysOf (processApiData S atts d e true))
      (stateIds (processApiData S atts d e true))
      (List.insertionSort newestGe (processedOf atts d e))
      (toEntries (processApiData S atts d e true))
      (by rw [entryKeys_toEntries hS']; exact hS')
      (by
        intro nm hnm
        have hnmP : nm ∈ processedOf atts d e := by
          have h2 := hnm
          rwa [List.mem_insertionSort] at h2
        have hfp : pmFind nm.messageId (processedOf atts d e) = some nm :=
          mem_pmFind (processedOf_keys_nodup atts d e) hnmP
        have hsome : ∃ w, mergeLookup S atts d e nm.messageId = some w := by
          unfold mergeLookup
          rw [hfp]
          cases pmFind nm.messageId S <;> exact ⟨_, rfl⟩
        obtain ⟨w, hw⟩ := hsome
        have hfS2 : pmFind nm.messageId (processApiData S atts d e true) = some w := by
          rw [processApiData_pmFind hS]
          exact hw
        refine ⟨?_, w, ?_, ?_⟩
        · rw [contains_iff_mem]
          by_contra hc
          exact Option.noConfusion (hfS2.symm.trans (pmFind_none_iff.mpr hc))
        · rw [alookup_toEntries hS']
          exact hfS2
        · refine updateExisting_eq_self_of_filter_nil ?_
          rw [List.filter_eq_nil_iff]
          intro a ha
          have hsub := processed_attempts_sub hnmP a ha
          have hmid : a.messageId ≠ "" := by
            rw [hsub.2]
            exact processedOf_key_ne_empty hnmP
          have hcov := merge_ids_coverage hS atts d e hsub.1 hmid
          simpa using hcov)
    rw [hfold, vals_toEntries hS']
    exact (processApiData_sorted S atts d e true).insertionSort_eq

theorem processApiData_incremental_idempotent_witness :
    processApiData
        (processApiData (processApiData [] [attOk] [] [] false) [attOk2] [] [] true)
        [attOk2] [] [] true =
      processApiData (processApiData [] [attOk] [] [] false) [attOk2] [] [] true :=
  processApiData_incremental_idempotent
    (processApiData [] [attOk] [] [] false) [attOk2] [] [] (by decide)

theorem headI_mem {l : List ProcessedMessage} (h : l ≠ []) : l.headI ∈ l := by
  cases l with
  | nil => exact absurd rfl h
  | cons x xs => exact List.mem_cons_self _ _

/-- Claim C10: frame of the incremental merge. When a batch is merged into an
existing collection, every aggregate whose messageId was already present
keeps its documentId, parsingError, largePayloadFailure and hookId unchanged,
whatever the documentIdMap and parsingErrors of the call contain and however
the member attempts and the latest failure change. -/
theorem frozenFields_preserved_on_merge
    (S : List ProcessedMessage) (atts : List Attempt) (d : List (String × String))
    (e : List MessageWithError) (hS : (stateKeysOf S).Nodup)
    (s v : ProcessedMessage) (hs : s ∈ S)
    (hv : v ∈ processApiData S atts d e true) (hk : v.messageId = s.messageId) :
    v.documentId = s.documentId ∧ v.parsingError = s.parsingError ∧
      v.largePayloadFailure = s.largePayloadFailure ∧ v.hookId = s.hookId := by
  have hml := (processApiData_mem_iff hS atts d e v).mp hv
  have hfS : pmFind v.messageId S = some s := by
    rw [hk]
    exact mem_pmFind hS hs
  unfold mergeLookup at hml
  rw [hfS] at hml
  cases hfp : pmFind v.messageId (processedOf atts d e) with
  | some nm =>
    rw [hfp] at hml
    have hv2 : v = updateExisting (stateIds S) s nm := (Option.some_inj.mp hml).symm
    rw [hv2]
    exact ⟨updateExisting_documentId _ _ _, updateExisting_parsingError _ _ _,
      updateExisting_largePayloadFailure _ _ _, updateExisting_hookId _ _ _⟩
  | none =>
    rw [hfp] at hml
    have hv2 : v = s := (Option.some_inj.mp hml).symm
    rw [hv2]
    exact ⟨rfl, rfl, rfl, rfl⟩

theorem frozenFields_preserved_on_merge_witness :
    ((processApiData (processApiData [] [attOk] [] [] false) [attOk2] [] [] true).headI).documentId
        = ((processApiData [] [attOk] [] [] false).headI).documentId ∧
      ((processApiData (processApiData [] [attOk] [] [] false) [attOk2] [] [] true).headI).parsingError
        = ((processApiData [] [attOk] [] [] false).headI).parsingError ∧
      ((processApiData (processApiData [] [attOk] [] [] false) [attOk2] [] [] true).headI).largePayloadFailure
        = ((processApiData [] [attOk] [] [] false).headI).largePayloadFailure ∧
      ((processApiData (processApiData [] [attOk] [] [] false) [attOk2] [] [] true).headI).hookId
        = ((processApiData [] [attOk] [] [] false).headI).hookId :=
  frozenFields_preserved_on_merge (processApiData [] [attOk] [] [] false) [attOk2] [] []
    (by decide) ((processApiData [] [attOk] [] [] false).headI)
    ((processApiData (processApiData [] [attOk] [] [] false) [attOk2] [] [] true).headI)
    (headI_mem (by decide)) (headI_mem (by decide)) (by decide)

/-- Counterexample to claim C3 as stated: in an incremental merge that adds a
new attempt to an existing aggregate, largePayloadFailure is not recomputed
from the unioned member list. A 500 failure followed by a merged-in 413
failure leaves the flag false although recomputation from the union yields
true. -/
theorem recomputeAllFields_counterexample :
    (processApiData (processApiData [] [att500] [] [] false) [att413] [] [] true).headI.largePayloadFailure
        = some false ∧
      (deriveMessage [] [] "m" [att500, att413]).largePayloadFailure = some true := by
  decide

/-- Claim C3 (amended): in an incremental merge in which an existing aggregate
receives at least one attempt with a fresh id, the fields attempts,
oldestAttempt, newestAttempt, attemptCount, successRate and latestFailure are
recomputed from the unioned, re-sorted member list exactly as the per-group
derivation computes them on the union; documentId, parsingError,
largePayloadFailure and hookId are instead carried over unchanged. -/
theorem incrementalUpdate_recomputes_from_union
    (S : List ProcessedMessage) (atts : List Attempt) (d : List (String × String))
    (e : List MessageWithError) (hS : (stateKeysOf S).Nodup) (k : String)
    (s nm v : ProcessedMessage)
    (hfS : pmFind k S = some s)
    (hfp : pmFind k (processedOf atts d e) = some nm)
    (hnew : nm.attempts.filter (fun a => !((stateIds S).contains a.id)) ≠ [])
    (hv : v ∈ processApiData S atts d e true) (hk : v.messageId = k) :
    v.attempts = (deriveFromUnion d (errMapOf e) s nm (stateIds S)).attempts ∧
      v.oldestAttempt = (deriveFromUnion d (errMapOf e) s nm (stateIds S)).oldestAttempt ∧
      v.newestAttempt = (deriveFromUnion d (errMapOf e) s nm (stateIds S)).newestAttempt ∧
      v.attemptCount = (deriveFromUnion d (errMapOf e) s nm (stateIds S)).attemptCount ∧
      v.successRate = (deriveFromUnion d (errMapOf e) s nm (stateIds S)).successRate ∧
      v.latestFailure = (deriveFromUnion d (errMapOf e) s nm (stateIds S)).latestFailure := by
  have hml := (processApiData_mem_iff hS atts d e v).mp hv
  rw [hk] at hml
  unfold mergeLookup at hml
  rw [hfS, hfp] at hml
  have hv2 : v = updateExisting (stateIds S) s nm := (Option.some_inj.mp hml).symm
  have hlen : 0 < (nm.attempts.filter (fun a => !((stateIds S).contains a.id))).length :=
    List.length_pos.mpr hnew
  rw [hv2]
  unfold deriveFromUnion
  refine ⟨?_, ?_, ?_, ?_, ?_, ?_⟩ <;>
    simp only [updateExisting, deriveMessage, if_pos hlen]

theorem incrementalUpdate_recomputes_from_union_witness :
    (processApiData (processApiData [] [att500] [] [] false) [att413] [] [] true).headI.latestFailure
      = (deriveFromUnion [] [] ((processApiData [] [att500] [] [] false).headI)
          ((processedOf [att413] [] []).headI)
          (stateIds (processApiData [] [att500] [] [] false))).latestFailure :=
  (incrementalUpdate_recomputes_from_union (processApiData [] [att500] [] [] false)
    [att413] [] [] (by decide) "m"
    ((processApiData [] [att500] [] [] false).headI) ((processedOf [att413] [] []).headI)
    ((processApiData (processApiData [] [att500] [] [] false) [att413] [] [] true).headI)
    rfl rfl (by decide) (headI_mem (by decide)) (by decide)).2.2.2.2.2

/-- Claim C5 as evaluated on the code: after a full load with a 500 failure
and an incremental merge of a later 413 failure, the aggregate's latest
failure has resultCode 413 yet largePayloadFailure remains false, because the
incremental update path of processApiData never recomputes the flag. -/
theorem largePayloadFlag_stale_on_merge :
    (processApiData (processApiData [] [att500] [] [] false) [att413] [] [] true).headI.latestFailure
        = some att413 ∧
      att413.resultCode = 413 ∧
      (processApiData (processApiData [] [att500] [] [] false) [att413] [] [] true).headI.largePayloadFailure
        = some false := by
  decide

theorem processedOf_attempts_nodup {atts : List Attempt} {d : List (String × String)}
    {e : List MessageWithError} (hb : (atts.map (fun a => a.id)).Nodup)
    {nm : ProcessedMessage} (h : nm ∈ processedOf atts d e) :
    (nm.attempts.map (fun a => a.id)).Nodup := by
  obtain ⟨p, hp, he⟩ := List.mem_map.mp h
  have hfil := group_mem_eq_filter hp
  rw [← he, deriveMessage_attempts]
  have hperm := (List.perm_insertionSort timeLe p.2).map (fun a => a.id)
  refine hperm.nodup_iff.mpr ?_
  rw [hfil.2.1]
  exact List.Nodup.sublist ((List.filter_sublist atts).map (fun a => a.id)) hb

theorem merge_preserves_attempt_nodup {st : List ProcessedMessage}
    (hnd : (stateKeysOf st).Nodup)
    (hatt : ∀ v ∈ st, (v.attempts.map (fun a => a.id)).Nodup)
    {atts : List Attempt} (hb : (atts.map (fun a => a.id)).Nodup)
    (d : List (String × String)) (e : List MessageWithError) (b : Bool) :
    ∀ v ∈ processApiData st atts d e b, (v.attempts.map (fun a => a.id)).Nodup := by
  intro v hv
  cases b with
  | false =>
    rw [processApiData_not_incremental, List.mem_insertionSort] at hv
    exact processedOf_attempts_nodup hb hv
  | true =>
    have hml := (processApiData_mem_iff hnd atts d e v).mp hv
    unfold mergeLookup at hml
    cases hfS : pmFind v.messageId st with
    | some s =>
      cases hfp : pmFind v.messageId (processedOf atts d e) with
      | some nm =>
        rw [hfS, hfp] at hml
        have hv2 : v = updateExisting (stateIds st) s nm := (Option.some_inj.mp hml).symm
        rw [hv2]
        have hperm := (updateExisting_attempts_perm (stateIds st) s nm).map (fun a => a.id)
        refine hperm.nodup_iff.mpr ?_
        rw [List.map_append]
        refine List.Nodup.append ?_ ?_ ?_
        · exact hatt s (pmFind_mem hfS).1
        · have hnmnd := processedOf_attempts_nodup hb (pmFind_mem hfp).1
          exact List.Nodup.sublist
            ((List.filter_sublist nm.attempts).map (fun a => a.id)) hnmnd
        · intro x hx1 hx2
          obtain ⟨a, ha, he⟩ := List.mem_map.mp hx2
          have hmemf := List.mem_filter.mp ha
          have hxS : x ∈ stateIds st := mem_stateIds.mpr ⟨s, (pmFind_mem hfS).1, hx1⟩
          rw [← he] at hxS
          have hcon := (contains_iff_mem (stateIds st) a.id).mpr hxS
          rw [hcon] at hmemf
          exact Bool.noConfusion hmemf.2
      | none =>
        rw [hfS, hfp] at hml
        have hv2 : v = s := (Option.some_inj.mp hml).symm
        rw [hv2]
        exact hatt s (pmFind_mem hfS).1
    | none =>
      cases hfp : pmFind v.messageId (processedOf atts d e) with
      | some nm =>
        rw [hfS, hfp] at hml
        have hv2 : v = nm := (Option.some_inj.mp hml).symm
        rw [hv2]
        exact processedOf_attempts_nodup hb (pmFind_mem hfp).1
      | none =>
        rw [hfS, hfp] at hml
        exact Option.noConfusion hml

/-- Counterexample to claim C4 as stated: a duplicate attempt id arriving
twice within a single input batch is not discarded; a single full merge of a
batch containing the same attempt twice yields an aggregate whose member list
carries the id twice. -/
theorem dedupWithinBatch_counterexample :
    (processApiData [] [attOk, attOk] [] [] false).headI.attempts.map (fun a => a.id)
      = ["w1", "w1"] := by
  decide

/-- Claim C4 (amended): across any sequence of merge calls, full or
incremental, starting from the empty collection, no aggregate's member list
ever contains the same attempt id twice, provided each individual input batch
contains no duplicate ids; duplicates arriving again in later overlapping
fetches are discarded by identity. -/
theorem dedup_across_merges (calls : List MergeCall)
    (h : ∀ c ∈ calls, (c.atts.map (fun a => a.id)).Nodup) :
    ∀ v ∈ mergeSeq calls, (v.attempts.map (fun a => a.id)).Nodup := by
  suffices haux : ∀ (cs : List MergeCall) (st : List ProcessedMessage),
      (stateKeysOf st).Nodup → (∀ v ∈ st, (v.attempts.map (fun a => a.id)).Nodup) →
      (∀ c ∈ cs, (c.atts.map (fun a => a.id)).Nodup) →
      ∀ v ∈ cs.foldl (fun st c => processApiData st c.atts c.docIds c.errs c.isIncremental) st,
        (v.attempts.map (fun a => a.id)).Nodup by
    intro v hv
    exact haux calls [] (by simp [stateKeysOf]) (by intro v hv; simp at hv) h v hv
  intro cs
  induction cs with
  | nil => intro st _ hatt _ v hv; exact hatt v hv
  | cons c cs ih =>
    intro st hnd hatt hcalls v hv
    rw [List.foldl_cons] at hv
    exact ih (processApiData st c.atts c.docIds c.errs c.isIncremental)
      (processApiData_keys_nodup hnd c.atts c.docIds c.errs c.isIncremental)
      (merge_preserves_attempt_nodup hnd hatt
        (hcalls c (List.mem_cons_self _ _)) c.docIds c.errs c.isIncremental)
      (fun q hq => hcalls q (List.mem_cons_of_mem _ hq)) v hv

theorem dedup_across_merges_witness :
    ((mergeSeq [⟨[attOk], [], [], false⟩, ⟨[attOk2], [], [], true⟩]).headI.attempts.map
      (fun a => a.id)).Nodup :=
  dedup_across_merges [⟨[attOk], [], [], false⟩, ⟨[attOk2], [], [], true⟩] (by decide)
    (mergeSeq [⟨[attOk], [], [], false⟩, ⟨[attOk2], [], [], true⟩]).headI
    (headI_mem (by decide))

theorem group_foldl_filter : ∀ (atts : List Attempt) (acc : List (String × List Attempt)),
    (atts.filter (fun a => !(a.messageId == ""))).foldl groupStep acc =
      atts.foldl groupStep acc := by
  intro atts
  induction atts with
  | nil => intro acc; rfl
  | cons a atts ih =>
    intro acc
    by_cases ha : a.messageId = ""
    · have hpred : (!(a.messageId == "")) = false := by simp [ha]
      rw [List.filter_cons, hpred]
      simp only [Bool.false_eq_true, if_false]
      rw [List.foldl_cons, show groupStep acc a = acc from by simp [groupStep, ha]]
      exact ih acc
    · have hpred : (!(a.messageId == "")) = true := by simp [ha]
      rw [List.filter_cons, hpred]
      simp only [if_true]
      rw [List.foldl_cons, List.foldl_cons]
      exact ih (groupStep acc a)

theorem processApiData_filter_empty (S : List ProcessedMessage) (atts : List Attempt)
    (d : List (String × String)) (e : List MessageWithError) (b : Bool) :
    processApiData S (atts.filter (fun a => !(a.messageId == ""))) d e b =
      processApiData S atts d e b := by
  unfold processApiData processedOf groupByMessageId
  rw [group_foldl_filter atts []]

theorem toEntries_key_prop (Q : String → Prop) (S : List ProcessedMessage)
    (h : ∀ msg ∈ S, Q msg.messageId) : ∀ p ∈ toEntries S, Q p.2.messageId := by
  unfold toEntries
  suffices haux : ∀ (l : List ProcessedMessage) (acc : List (String × ProcessedMessage)),
      (∀ p ∈ acc, Q p.2.messageId) → (∀ msg ∈ l, Q msg.messageId) →
      ∀ p ∈ l.foldl (fun m msg => jsMapSet m msg.messageId msg) acc, Q p.2.messageId by
    exact haux S [] (by intro p hp; simp at hp) h
  intro l
  induction l with
  | nil => intro acc hacc _ p hp; exact hacc p hp
  | cons hd tl ih =>
    intro acc hacc hl p hp
    rw [List.foldl_cons] at hp
    refine ih _ ?_ (fun msg hmsg => hl msg (List.mem_cons_of_mem _ hmsg)) p hp
    intro q hq
    rcases mem_jsMapSet hq with h1 | h2
    · exact hacc q h1
    · rw [h2]
      exact hl hd (List.mem_cons_self _ _)

theorem mergeFold_key_prop (sk ids : List String) (Q : String → Prop) :
    ∀ (l : List ProcessedMessage) (acc : List (String × ProcessedMessage)),
    (∀ p ∈ acc, Q p.2.messageId) → (∀ nm ∈ l, Q nm.messageId) →
    ∀ p ∈ l.foldl (mergeStep sk ids) acc, Q p.2.messageId := by
  intro l
  induction l with
  | nil => intro acc hacc _ p hp; exact hacc p hp
  | cons hd tl ih =>
    intro acc hacc hl p hp
    rw [List.foldl_cons] at hp
    refine ih _ ?_ (fun nm hnm => hl nm (List.mem_cons_of_mem _ hnm)) p hp
    intro q hq
    unfold mergeStep at hq
    split at hq
    · cases halo : alookup hd.messageId acc with
      | some w =>
        rw [halo] at hq
        rcases mem_jsMapSet hq with h1 | h2
        · exact hacc q h1
        · rw [h2]
          simp only [updateExisting_messageId]
          exact hacc (hd.messageId, w) (alookup_mem halo)
      | none =>
        rw [halo] at hq
        exact hacc q hq
    · rcases mem_jsMapSet hq with h1 | h2
      · exact hacc q h1
      · rw [h2]
        exact hl hd (List.mem_cons_self _ _)

/-- Claim C9: attempts whose messageId is absent (the empty string) are
silently dropped: merging a batch, full or incremental, gives exactly the
result of merging the batch restricted to attributable attempts, and when the
existing collection has no empty-keyed aggregate, the resulting collection
has none either. -/
theorem emptyMessageId_excluded (S : List ProcessedMessage) (atts : List Attempt)
    (d : List (String × String)) (e : List MessageWithError) (b : Bool)
    (hS : ∀ v ∈ S, v.messageId ≠ "") :
    processApiData S atts d e b =
      processApiData S (atts.filter (fun a => !(a.messageId == ""))) d e b ∧
    ∀ v ∈ processApiData S atts d e b, v.messageId ≠ "" := by
  refine ⟨(processApiData_filter_empty S atts d e b).symm, ?_⟩
  intro v hv
  cases b with
  | false =>
    rw [processApiData_not_incremental, List.mem_insertionSort] at hv
    exact processedOf_key_ne_empty hv
  | true =>
    by_cases hne : S = []
    · subst hne
      rw [processApiData_nil, List.mem_insertionSort] at hv
      exact processedOf_key_ne_empty hv
    · rw [processApiData_incremental hne, List.mem_insertionSort] at hv
      obtain ⟨p, hp, he⟩ := List.mem_map.mp hv
      rw [← he]
      refine mergeFold_key_prop (stateKeysOf S) (stateIds S) (fun x => x ≠ "") _ _
        (toEntries_key_prop (fun x => x ≠ "") S hS) ?_ p hp
      intro nm hnm
      have h2 := hnm
      rw [List.mem_insertionSort] at h2
      exact processedOf_key_ne_empty h2

theorem emptyMessageId_excluded_witness :
    processApiData [] [attOk, attNoMsg] [] [] false =
      processApiData [] ([attOk, attNoMsg].filter (fun a => !(a.messageId == ""))) [] [] false :=
  (emptyMessageId_excluded [] [attOk, attNoMsg] [] [] false
    (by intro v hv; exact absurd hv (List.not_mem_nil v))).1

/-- Claim C6: for every call of the attempts route that returns a success
payload, the hasMore signal is true exactly when the number of pages fetched
reached the configured maximum MAX_PAGES, independently of the page contents
(in particular of whether the last page was full); the number of pages
reported equals the number of offsets actually requested upstream. -/
theorem hasMore_iff_pages_reach_max
    (projectId webhookId : Option String) (offsetParam limitParam : Option Nat)
    (beforeTimestamp : Option Int) (token : Option String) (now : Int)
    (fetchPage : Nat → Option (List Attempt))
    (payload : AttemptsPayload) (reqs : List Nat)
    (h : attemptsRoute projectId webhookId offsetParam limitParam beforeTimestamp token now
      fetchPage = (ApiResult.ok payload, reqs)) :
    (payload.hasMore = true ↔ MAX_PAGES_ATTEMPTS ≤ payload.pages) ∧
      payload.pages = reqs.length := by
  simp only [attemptsRoute] at h
  split at h
  · simp at h
  · split at h
    · simp at h
    · rw [Prod.mk.injEq] at h
      obtain ⟨h1, h2⟩ := h
      injection h1 with h1
      subst h1
      subst h2
      constructor
      · simp [decide_eq_true_iff]
      · simp

theorem hasMore_iff_pages_reach_max_witness :
    ((⟨[], 0, 50, false, none, 0, 5⟩ : AttemptsPayload).hasMore = true ↔
        MAX_PAGES_ATTEMPTS ≤ (⟨[], 0, 50, false, none, 0, 5⟩ : AttemptsPayload).pages) ∧
      (⟨[], 0, 50, false, none, 0, 5⟩ : AttemptsPayload).pages
        = [0, 50, 100, 150, 200].length :=
  hasMore_iff_pages_reach_max (some "p") (some "w") none none none (some "t") 0
    (fun _ => some []) ⟨[], 0, 50, false, none, 0, 5⟩ [0, 50, 100, 150, 200] (by decide)

/-- Claim C8: when projectId or webhookId is absent or empty, both fetch
adapter routes fail immediately with the 400 missing-parameters error and
request no upstream page; when the parameters are present but the credential
token is absent (or blank after trimming), both fail with the distinct 500
misconfiguration error, again without contacting the upstream API. -/
theorem routes_param_and_token_errors
    (projectId webhookId : Option String) (offsetParam limitParam : Option Nat)
    (beforeTimestamp : Option Int) (token : Option String) (now : Int)
    (fetchA : Nat → Option (List Attempt)) (fetchM : Nat → Option (List MessageRec))
    (parse : String → Except String JVal) :
    ((jsStrFalsy projectId || jsStrFalsy webhookId) = true →
      attemptsRoute projectId webhookId offsetParam limitParam beforeTimestamp token now fetchA
        = (ApiResult.fail 400
            "Missing required parameters: projectId and webhookId are required", []) ∧
      messagesRoute projectId webhookId beforeTimestamp token now fetchM parse
        = (ApiResult.fail 400
            "Missing required parameters: projectId and webhookId are required", [])) ∧
    ((jsStrFalsy projectId || jsStrFalsy webhookId) = false →
      jsStrFalsy (token.map strTrim) = true →
      attemptsRoute projectId webhookId offsetParam limitParam beforeTimestamp token now fetchA
        = (ApiResult.fail 500 "SANITY_API_TOKEN is not defined in environment variables", []) ∧
      messagesRoute projectId webhookId beforeTimestamp token now fetchM parse
        = (ApiResult.fail 500 "SANITY_API_TOKEN is not defined in environment variables", [])) := by
  constructor
  · intro hmiss
    constructor
    · unfold attemptsRoute
      rw [if_pos hmiss]
    · unfold messagesRoute
      rw [if_pos hmiss]
  · intro hmiss htok
    constructor
    · unfold attemptsRoute
      rw [if_neg (by simp [hmiss]), if_pos htok]
    · unfold messagesRoute
      rw [if_neg (by simp [hmiss]), if_pos htok]

theorem routes_param_and_token_errors_witness :
    attemptsRoute none (some "w") none none none (some "t") 0 (fun _ => some []) =
      (ApiResult.fail 400
        "Missing required parameters: projectId and webhookId are required", []) :=
  ((routes_param_and_token_errors none (some "w") none none none (some "t") 0
    (fun _ => some []) (fun _ => some []) parseEmptyObj).1 (by decide)).1

theorem extract_errors_eq (parse : String → Except String JVal) :
    ∀ (msgs : List MessageRec) (acc : List (String × JVal) × List MessageWithError),
    (msgs.foldl (extractStep parse) acc).2 =
      acc.2 ++ msgs.filterMap (errEntryOf parse) := by
  intro msgs
  induction msgs with
  | nil => intro acc; simp
  | cons m msgs ih =>
    intro acc
    rw [List.foldl_cons, List.filterMap_cons, ih (extractStep parse acc m)]
    unfold extractStep errEntryOf
    cases hpay : m.payload with
    | none => simp
    | some p =>
      dsimp only
      by_cases hne : p = ""
      · simp [hne]
      · rw [if_neg hne, if_neg hne]
        cases hparse : parse p with
        | ok j =>
          dsimp only
          split
          · cases hbind : (getField j "after").bind (fun a => getField a "_id") with
            | some idv =>
              by_cases hidv : jsTruthy idv = true
              · simp [hidv]
              · simp [hidv]
            | none => simp
          · simp
        | error err => simp

theorem mem_entryKeys_jsMapSet {β : Type} (m : List (String × β)) (key k : String)
    (v : β) : k ∈ entryKeys (jsMapSet m key v) ↔ k ∈ entryKeys m ∨ k = key := by
  rw [entryKeys_jsMapSet]
  split
  · next h =>
    constructor
    · exact Or.inl
    · rintro (h1 | h1)
      · exact h1
      · exact h1 ▸ (hasKey_iff m key).mp h
  · rw [List.mem_append]
    simp

theorem extract_step_keys (parse : String → Except String JVal)
    (acc : List (String × JVal) × List MessageWithError) (m : MessageRec) (k : String) :
    k ∈ entryKeys (extractStep parse acc m).1 ↔
      k ∈ entryKeys acc.1 ∨ (k = m.id ∧ extractAddsId parse m = true) := by
  unfold extractStep extractAddsId
  cases hpay : m.payload with
  | none => simp
  | some p =>
    dsimp only
    by_cases hne : p = ""
    · simp [hne]
    · rw [if_neg hne, if_neg hne]
      cases hparse : parse p with
      | ok j =>
        dsimp only
        split
        · cases hbind : (getField j "after").bind (fun a => getField a "_id") with
          | some idv =>
            by_cases hidv : jsTruthy idv = true
            · simp only [hidv, if_true]
              rw [mem_entryKeys_jsMapSet acc.1 m.id k idv]
              simp
            · simp [hidv]
          | none => simp
        · simp
      | error err => simp

theorem extract_map_keys (parse : String → Except String JVal) :
    ∀ (msgs : List MessageRec) (acc : List (String × JVal) × List MessageWithError)
    (k : String),
    k ∈ entryKeys (msgs.foldl (extractStep parse) acc).1 ↔
      k ∈ entryKeys acc.1 ∨ ∃ m ∈ msgs, m.id = k ∧ extractAddsId parse m = true := by
  intro msgs
  induction msgs with
  | nil => intro acc k; simp
  | cons m msgs ih =>
    intro acc k
    rw [List.foldl_cons, ih (extractStep parse acc m),
      extract_step_keys parse acc m k]
    constructor
    · rintro ((hk | ⟨hk, ha⟩) | ⟨q, hq, hqk, hqa⟩)
      · exact Or.inl hk
      · exact Or.inr ⟨m, List.mem_cons_self _ _, hk.symm, ha⟩
      · exact Or.inr ⟨q, List.mem_cons_of_mem _ hq, hqk, hqa⟩
    · rintro (hk | ⟨q, hq, hqk, hqa⟩)
      · exact Or.inl (Or.inl hk)
      · rcases List.mem_cons.mp hq with he | hq2
        · subst he
          exact Or.inl (Or.inr ⟨hqk.symm, hqa⟩)
        · exact Or.inr ⟨q, hq2, hqk, hqa⟩

theorem strTake_length_le (s : String) (n : Nat) : (strTake s n).length ≤ n := by
  unfold strTake
  show (s.data.take n).length ≤ n
  exact List.length_take_le n s.data

/-- Counterexample to claim C7 as stated: when the payload parses successfully
but the after._id path is missing, the message is omitted from the identifier
map yet nothing is appended to the error list. One message with a non-empty
payload and a parser returning the empty object yields an empty map and an
empty error list. -/
theorem missingPath_no_error_entry :
    extractDocumentIds parseEmptyObj [⟨"m1", 0, some "p"⟩] = ([], []) ∧
      parseEmptyObj "p" = Except.ok (JVal.jobj []) ∧
      getField (JVal.jobj []) "after" = none :=
  ⟨rfl, rfl, rfl⟩

theorem errEntryOf_some {parse : String → Except String JVal} {m2 : MessageRec}
    {q : MessageWithError} (he2 : errEntryOf parse m2 = some q) :
    q.id = m2.id ∧ ∃ p2 e2, m2.payload = some p2 ∧ p2 ≠ "" ∧
      parse p2 = Except.error e2 := by
  unfold errEntryOf at he2
  cases hpay2 : m2.payload with
  | none =>
    rw [hpay2] at he2
    exact Option.noConfusion he2
  | some p2 =>
    rw [hpay2] at he2
    dsimp only at he2
    by_cases hne2 : p2 = ""
    · rw [if_pos hne2] at he2
      exact Option.noConfusion he2
    · rw [if_neg hne2] at he2
      cases hparse2 : parse p2 with
      | ok j2 =>
        rw [hparse2] at he2
        exact Option.noConfusion he2
      | error e2 =>
        rw [hparse2] at he2
        have hq := Option.some_inj.mp he2
        refine ⟨?_, p2, e2, rfl, hne2, hparse2⟩
        rw [← hq]

/-- Claim C7 (amended): for every message with a truthy payload, when parsing
the payload throws, the message id is absent from the identifier map and an
entry with its id, the error, and the first 100 payload characters followed
by an ellipsis (so at most 103 characters) is appended to the error list;
when parsing succeeds but the after._id path is missing or falsy, the message
is omitted from the identifier map and no error entry is recorded. Decoding
is independent per message: the error list of a concatenation is the
concatenation of the error lists. -/
theorem payloadDecoder_amended (parse : String → Except String JVal)
    (msgs : List MessageRec) (m : MessageRec) (p : String)
    (hm : m ∈ msgs) (hp : m.payload = some p) (hne : p ≠ "")
    (hnd : (msgs.map (fun x => x.id)).Nodup) :
    (∀ err, parse p = Except.error err →
      (⟨m.id, err, some (strTake p 100 ++ "...")⟩ : MessageWithError)
          ∈ (extractDocumentIds parse msgs).2 ∧
        alookup m.id (extractDocumentIds parse msgs).1 = none ∧
        (strTake p 100 ++ "...").length ≤ 103) ∧
    (∀ j, parse p = Except.ok j →
      truthyOpt ((getField j "after").bind (fun a => getField a "_id")) = false →
      alookup m.id (extractDocumentIds parse msgs).1 = none ∧
        ∀ q ∈ (extractDocumentIds parse msgs).2, q.id ≠ m.id) ∧
    (∀ ms1 ms2 : List MessageRec,
      (extractDocumentIds parse (ms1 ++ ms2)).2 =
        (extractDocumentIds parse ms1).2 ++ (extractDocumentIds parse ms2).2) := by
  have hinj := List.inj_on_of_nodup_map hnd
  have habsent : extractAddsId parse m = false →
      alookup m.id (extractDocumentIds parse msgs).1 = none := by
    intro hadds
    refine alookup_none_iff.mpr ?_
    intro hmem
    unfold extractDocumentIds at hmem
    rw [extract_map_keys parse msgs ([], []) m.id] at hmem
    rcases hmem with h1 | ⟨q, hq, hqk, hqa⟩
    · simp [entryKeys] at h1
    · have hqm : q = m := hinj hq hm hqk
      rw [hqm, hadds] at hqa
      exact Bool.noConfusion hqa
  refine ⟨?_, ?_, ?_⟩
  · intro err herr
    refine ⟨?_, ?_, ?_⟩
    · unfold extractDocumentIds
      rw [extract_errors_eq parse msgs ([], [])]
      refine List.mem_append.mpr (Or.inr (List.mem_filterMap.mpr ⟨m, hm, ?_⟩))
      unfold errEntryOf
      rw [hp]
      dsimp only
      rw [if_neg hne, herr]
    · refine habsent ?_
      unfold extractAddsId
      rw [hp]
      dsimp only
      rw [if_neg hne, herr]
    · rw [String.length_append]
      have h1 := strTake_length_le p 100
      have h2 : ("..." : String).length = 3 := rfl
      omega
  · intro j hj hmiss
    constructor
    · refine habsent ?_
      unfold extractAddsId
      rw [hp]
      dsimp only
      rw [if_neg hne, hj]
      dsimp only
      split
      · cases hbind : (getField j "after").bind (fun a => getField a "_id") with
        | some idv =>
          rw [hbind] at hmiss
          exact hmiss
        | none => rfl
      · rfl
    · intro q hq hqm
      unfold extractDocumentIds at hq
      rw [extract_errors_eq parse msgs ([], [])] at hq
      rcases List.mem_append.mp hq with h1 | h1
      · simp at h1
      · obtain ⟨m2, hm2, he2⟩ := List.mem_filterMap.mp h1
        obtain ⟨hqid, p2, e2, hpay2, hne2, hparse2⟩ := errEntryOf_some he2
        have hm2m : m2 = m := hinj hm2 hm (hqid.symm.trans hqm)
        rw [hm2m, hp] at hpay2
        have hpe : p = p2 := Option.some_inj.mp hpay2
        rw [← hpe, hj] at hparse2
        exact Except.noConfusion hparse2
  · intro ms1 ms2
    unfold extractDocumentIds
    rw [List.foldl_append,
      extract_errors_eq parse ms2 (List.foldl (extractStep parse) ([], []) ms1),
      extract_errors_eq parse ms1 ([], []), extract_errors_eq parse ms2 ([], [])]
    simp

theorem payloadDecoder_amended_witness :
    (⟨"m1", "bad json", some (strTake "pay" 100 ++ "...")⟩ : MessageWithError)
        ∈ (extractDocumentIds parseFail [⟨"m1", 0, some "pay"⟩]).2 ∧
      alookup "m1" (extractDocumentIds parseFail [⟨"m1", 0, some "pay"⟩]).1 = none ∧
      (strTake "pay" 100 ++ "...").length ≤ 103 :=
  (payloadDecoder_amended parseFail [⟨"m1", 0, some "pay"⟩] ⟨"m1", 0, some "pay"⟩ "pay"
    (List.mem_cons_self _ _) rfl (by decide) (by decide)).1 "bad json" rfl

theorem mergeLookup_none_processed (S' : List ProcessedMessage) {X : List Attempt}
    {d : List (String × String)} {e : List MessageWithError} {k : String}
    (h : pmFind k (processedOf X d e) = none) :
    mergeLookup S' X d e k = pmFind k S' := by
  unfold mergeLookup
  rw [h]
  cases h2 : pmFind k S' <;> rfl

theorem mergeLookup_some_processed (S' : List ProcessedMessage) {X : List Attempt}
    {d : List (String × String)} {e : List MessageWithError} {k : String}
    {nm : ProcessedMessage} (h : pmFind k (processedOf X d e) = some nm) :
    mergeLookup S' X d e k =
      match pmFind k S' with
      | some s => some (updateExisting (stateIds S') s nm)
      | none => some nm := by
  unfold mergeLookup
  rw [h]
  cases h2 : pmFind k S' <;> rfl

theorem processed_some_key_mem {X : List Attempt} {d : List (String × String)}
    {e : List MessageWithError} {k : String} {nm : ProcessedMessage}
    (h : pmFind k (processedOf X d e) = some nm) : ∃ a ∈ X, a.messageId = k := by
  obtain ⟨hmem, hkk⟩ := pmFind_mem h
  obtain ⟨p, hp, he⟩ := List.mem_map.mp hmem
  have hfil := group_mem_eq_filter hp
  cases hp2 : p.2 with
  | nil => exact absurd hp2 hfil.2.2
  | cons a rest =>
    have ha : a ∈ p.2 := by rw [hp2]; exact List.mem_cons_self a rest
    rw [hfil.2.1] at ha
    have hmf := List.mem_filter.mp ha
    have h1 : nm.messageId = p.1 := by rw [← he, deriveMessage_messageId]
    exact ⟨a, hmf.1, by rw [beq_iff_eq.mp hmf.2, ← h1, hkk]⟩

theorem contains_eq_of_mem_iff {l1 l2 : List String} {x : String}
    (h : x ∈ l1 ↔ x ∈ l2) : l1.contains x = l2.contains x := by
  cases hc1 : l1.contains x with
  | true => exact ((contains_iff_mem l2 x).mpr (h.mp ((contains_iff_mem l1 x).mp hc1))).symm
  | false =>
    cases hc2 : l2.contains x with
    | true =>
      have hx1 := h.mpr ((contains_iff_mem l2 x).mp hc2)
      rw [(contains_iff_mem l1 x).mpr hx1] at hc1
      exact Bool.noConfusion hc1
    | false => rfl

theorem updateExisting_congr_ids {ids1 ids2 : List String} {s nm : ProcessedMessage}
    (h : ∀ a ∈ nm.attempts, ids1.contains a.id = ids2.contains a.id) :
    updateExisting ids1 s nm = updateExisting ids2 s nm := by
  have hf : nm.attempts.filter (fun a => !(ids1.contains a.id)) =
      nm.attempts.filter (fun a => !(ids2.contains a.id)) :=
    List.filter_congr (fun a ha => by rw [h a ha])
  simp only [updateExisting, hf]

theorem stateIds_merge_iff {S : List ProcessedMessage} (hS : (stateKeysOf S).Nodup)
    (X : List Attempt) (d : List (String × String)) (e : List MessageWithError)
    (x : String) (hnX : ∀ a ∈ X, a.id ≠ x) :
    x ∈ stateIds (processApiData S X d e true) ↔ x ∈ stateIds S := by
  constructor
  · intro hmem
    obtain ⟨v, hv, hx⟩ := mem_stateIds.mp hmem
    rcases merge_ids_bound hS X d e hv x hx with h1 | ⟨a, ha, hax⟩
    · exact h1
    · exact absurd hax (hnX a ha)
  · intro hmem
    obtain ⟨s, hs, hx⟩ := mem_stateIds.mp hmem
    obtain ⟨v, hv, hvk, hsup⟩ := merge_ids_superset hS X d e hs
    exact mem_stateIds.mpr ⟨v, hv, hsup x hx⟩

theorem mergeOrder_pmFind_eq (S : List ProcessedMessage) (A B : List Attempt)
    (dA dB : List (String × String)) (eA eB : List MessageWithError)
    (hS : (stateKeysOf S).Nodup)
    (hMsg : ∀ a ∈ A, ∀ b ∈ B, a.messageId ≠ b.messageId)
    (hIds : ∀ a ∈ A, ∀ b ∈ B, a.id ≠ b.id) (k : String) :
    pmFind k (processApiData (processApiData S A dA eA true) B dB eB true) =
      pmFind k (processApiData (processApiData S B dB eB true) A dA eA true) := by
  have hSA := processApiData_keys_nodup hS A dA eA true
  have hSB := processApiData_keys_nodup hS B dB eB true
  rw [processApiData_pmFind hSA B dB eB k, processApiData_pmFind hSB A dA eA k]
  cases hkA : pmFind k (processedOf A dA eA) with
  | none =>
    cases hkB : pmFind k (processedOf B dB eB) with
    | none =>
      rw [mergeLookup_none_processed _ hkB, processApiData_pmFind hS A dA eA k,
        mergeLookup_none_processed S hkA, mergeLookup_none_processed _ hkA,
        processApiData_pmFind hS B dB eB k, mergeLookup_none_processed S hkB]
    | some nmB =>
      have e1 : mergeLookup (processApiData S A dA eA true) B dB eB k =
          match pmFind k S with
          | some s => some (updateExisting
              (stateIds (processApiData S A dA eA true)) s nmB)
          | none => some nmB := by
        rw [mergeLookup_some_processed _ hkB, processApiData_pmFind hS A dA eA k,
          mergeLookup_none_processed S hkA]
      have e2 : mergeLookup (processApiData S B dB eB true) A dA eA k =
          match pmFind k S with
          | some s => some (updateExisting (stateIds S) s nmB)
          | none => some nmB := by
        rw [mergeLookup_none_processed _ hkA, processApiData_pmFind hS B dB eB k,
          mergeLookup_some_processed S hkB]
      rw [e1, e2]
      cases hkS : pmFind k S with
      | none => rfl
      | some s =>
        have hagree : ∀ a ∈ nmB.attempts,
            (stateIds (processApiData S A dA eA true)).contains a.id =
              (stateIds S).contains a.id := by
          intro a ha
          have haB := processed_attempts_sub (pmFind_mem hkB).1 a ha
          refine contains_eq_of_mem_iff (stateIds_merge_iff hS A dA eA a.id ?_)
          intro q hq
          exact hIds q hq a haB.1
        show some (updateExisting (stateIds (processApiData S A dA eA true)) s nmB) =
          some (updateExisting (stateIds S) s nmB)
        rw [updateExisting_congr_ids hagree]
  | some nmA =>
    cases hkB : pmFind k (processedOf B dB eB) with
    | none =>
      have e1 : mergeLookup (processApiData S A dA eA true) B dB eB k =
          match pmFind k S with
          | some s => some (updateExisting (stateIds S) s nmA)
          | none => some nmA := by
        rw [mergeLookup_none_processed _ hkB, processApiData_pmFind hS A dA eA k,
          mergeLookup_some_processed S hkA]
      have e2 : mergeLookup (processApiData S B dB eB true) A dA eA k =
          match pmFind k S with
          | some s => some (updateExisting
              (stateIds (processApiData S B dB eB true)) s nmA)
          | none => some nmA := by
        rw [mergeLookup_some_processed _ hkA, processApiData_pmFind hS B dB eB k,
          mergeLookup_none_processed S hkB]
      rw [e1, e2]
      cases hkS : pmFind k S with
      | none => rfl
      | some s =>
        have hagree : ∀ a ∈ nmA.attempts,
            (stateIds (processApiData S B dB eB true)).contains a.id =
              (stateIds S).contains a.id := by
          intro a ha
          have haA := processed_attempts_sub (pmFind_mem hkA).1 a ha
          refine contains_eq_of_mem_iff (stateIds_merge_iff hS B dB eB a.id ?_)
          intro q hq
          exact fun hqe => hIds a haA.1 q hq hqe.symm
        show some (updateExisting (stateIds S) s nmA) =
          some (updateExisting (stateIds (processApiData S B dB eB true)) s nmA)
        rw [updateExisting_congr_ids hagree]
    | some nmB =>
      exfalso
      obtain ⟨a, ha, hak⟩ := processed_some_key_mem hkA
      obtain ⟨b, hb, hbk⟩ := processed_some_key_mem hkB
      exact hMsg a ha b hb (hak.trans hbk.symm)

theorem perm_of_pmFind_eq {l1 l2 : List ProcessedMessage}
    (h1 : (stateKeysOf l1).Nodup) (h2 : (stateKeysOf l2).Nodup)
    (h : ∀ k, pmFind k l1 = pmFind k l2) : l1.Perm l2 := by
  rw [List.perm_ext_iff_of_nodup (List.Nodup.of_map _ h1) (List.Nodup.of_map _ h2)]
  intro v
  constructor
  · intro hv
    have hf := mem_pmFind h1 hv
    rw [h v.messageId] at hf
    exact (pmFind_mem hf).1
  · intro hv
    have hf := mem_pmFind h2 hv
    rw [← h v.messageId] at hf
    exact (pmFind_mem hf).1

theorem sorted_newestGt_of_nodup {l : List ProcessedMessage}
    (hs : l.Sorted newestGe)
    (hn : (l.map (fun v => v.newestAttempt)).Nodup) : l.Sorted newestGt := by
  have hs2 : l.Pairwise newestGe := hs
  have hpw : l.Pairwise (fun a b => a.newestAttempt ≠ b.newestAttempt) :=
    List.pairwise_map.mp hn
  have hgt : l.Pairwise newestGt :=
    (hs2.and hpw).imp (fun hab => Nat.lt_of_le_of_ne hab.1 (fun hx => hab.2 hx.symm))
  exact hgt

theorem eq_of_sorted_perm_nodup_newest {l1 l2 : List ProcessedMessage}
    (hs1 : l1.Sorted newestGe) (hs2 : l2.Sorted newestGe) (hp : l1.Perm l2)
    (hnd : (l1.map (fun v => v.newestAttempt)).Nodup) : l1 = l2 := by
  have hnd2 : (l2.map (fun v => v.newestAttempt)).Nodup :=
    (hp.map (fun v => v.newestAttempt)).nodup_iff.mp hnd
  exact List.eq_of_perm_of_sorted hp (sorted_newestGt_of_nodup hs1 hnd)
    (sorted_newestGt_of_nodup hs2 hnd2)

/-- Claim C2: counterexample. batchA and batchB are disjoint by attempt id yet
both carry message m; merging A then B into the empty collection leaves the
aggregate for m with hookId h1, while merging B then A leaves it with hookId
h2, so the final state is not determined by the union of attempts alone. -/
theorem mergeOrder_counterexample :
    (processApiData (processApiData [] batchA [] [] true) batchB [] [] true).map
        (fun v => v.hookId) = ["h1"] ∧
      (processApiData (processApiData [] batchB [] [] true) batchA [] [] true).map
        (fun v => v.hookId) = ["h2"] :=
  ⟨rfl, rfl⟩

/-- Claim C2, amended: if additionally the batches are disjoint by messageId
(each message appears in at most one of the two batches), then for any
well-formed state the two merge orders produce the same collection up to
permutation, and produce literally the same sorted list whenever the
newestAttempt timestamps of the result are pairwise distinct (no sort ties). -/
theorem mergeOrder_commutes_amended (S : List ProcessedMessage)
    (A B : List Attempt) (dA dB : List (String × String))
    (eA eB : List MessageWithError)
    (hS : (stateKeysOf S).Nodup)
    (hMsg : ∀ a ∈ A, ∀ b ∈ B, a.messageId ≠ b.messageId)
    (hIds : ∀ a ∈ A, ∀ b ∈ B, a.id ≠ b.id) :
    (processApiData (processApiData S A dA eA true) B dB eB true).Perm
        (processApiData (processApiData S B dB eB true) A dA eA true) ∧
      (((processApiData (processApiData S A dA eA true) B dB eB true).map
          (fun v => v.newestAttempt)).Nodup →
        processApiData (processApiData S A dA eA true) B dB eB true =
          processApiData (processApiData S B dB eB true) A dA eA true) := by
  have hperm : (processApiData (processApiData S A dA eA true) B dB eB true).Perm
      (processApiData (processApiData S B dB eB true) A dA eA true) :=
    perm_of_pmFind_eq
      (processApiData_keys_nodup (processApiData_keys_nodup hS A dA eA true) B dB eB true)
      (processApiData_keys_nodup (processApiData_keys_nodup hS B dB eB true) A dA eA true)
      (mergeOrder_pmFind_eq S A B dA dB eA eB hS hMsg hIds)
  refine ⟨hperm, fun hnd => ?_⟩
  exact eq_of_sorted_perm_nodup_newest
    (processApiData_sorted (processApiData S A dA eA true) B dB eB true)
    (processApiData_sorted (processApiData S B dB eB true) A dA eA true)
    hperm hnd

theorem mergeOrder_commutes_amended_witness :
    processApiData (processApiData [] [attOk] [] [] true) [att413] [] [] true =
      processApiData (processApiData [] [att413] [] [] true) [attOk] [] [] true :=
  (mergeOrder_commutes_amended [] [attOk] [att413] [] [] [] []
    (by decide) (by decide) (by decide)).2 (by decide)
